import Mathlib

/-!
# AR power-spectral-density estimator (Burg's method): embedding and properties

A shallow embedding of `ar_model.c`, `psd.c`, `peak_analysis.c`, `dsp_utils.c`
and the pipeline of `main.c`.

Modelling conventions.

* A C `double` has two readings. In the exact reading it is an element of a
  linearly ordered field `K`: the Burg recursion uses only `+ - * /` and `<=`,
  so it is written once for every carrier with these operations; `K = ℝ` is the
  setting of the exact properties, `K = ℚ` lets the same definitions be
  evaluated. The spectrum and the peak scan use `cexp`, `cabs` and `log10` and
  are written over `ℝ` and `ℂ`.
* In the binary64 reading it is a `Dbl`: NaN, an infinity or a finite real,
  with the IEEE 754 rules for these and for overflow and underflow. It shows
  what the code does where a value leaves the range; the properties that hold
  only without range effects are stated over exact arithmetic.
* A C `double*` buffer is a map from index to stored value (`Buf K`); its
  length travels separately, as in the C signatures.
* C `int` lengths, orders and indices are natural numbers (the properties
  concern non-negative values only); where a sum of `int`s can leave the 32-bit
  range (`calculate_aic`), it wraps.
* C `for` loops are the combinators `forUp` and `forDown`, which run the loop
  body on the successive values of the loop variable.
-/

namespace ArPsd

/-- A `double*` buffer: index to stored value. -/
abbrev Buf (K : Type) := Nat → K

/-- The loop `for (i = lo; i < lo + n; i++) s = body i s`. -/
def forUp {σ : Type} (body : Nat → σ → σ) : Nat → Nat → σ → σ
  | _, 0, s => s
  | lo, n + 1, s => forUp body (lo + 1) n (body lo s)

/-- The loop `for (i = lo + n; i > lo; i--) s = body i s`. -/
def forDown {σ : Type} (body : Nat → σ → σ) : Nat → Nat → σ → σ
  | _, 0, s => s
  | lo, n + 1, s => forDown body lo n (body (lo + n + 1) s)

section Burg

/- The recursion needs only the arithmetic operations and the comparison of the
carrier, so it runs on an exact field and on binary64 values alike. -/
variable {K : Type} [Zero K] [One K] [Add K] [Sub K] [Mul K] [Div K] [Neg K] [NatCast K]
  [OfNat K 2] [LE K] [DecidableRel (fun a b : K => a ≤ b)]

/-- The variables of `burg_method` that live across iterations of the order
loop. `divs` is a history variable, not a program variable: it records the pair
`(den, k)` of every division `k = -2.0 * num / den` the run performs. -/
structure BurgState (K : Type) where
  /-- the order-loop counter `j` -/
  j : Nat
  /-- the caller's coefficient buffer `a` -/
  a : Buf K
  /-- the scratch buffer `a_temp` -/
  a_temp : Buf K
  /-- forward prediction error `f` -/
  f : Buf K
  /-- backward prediction error `b` -/
  b : Buf K
  /-- running power estimate `p` -/
  p : K
  /-- history of the divisions performed: `(den, k)` -/
  divs : List (K × K)

/-- Lines 33-42: `num` and `den` accumulated by
`for (i = j + 1; i < signal_length; i++)`. -/
def burgNumDen (N j : Nat) (f b : Buf K) : K × K :=
  forUp (fun i (nd : K × K) =>
      let fi := f i
      let b_im1 := b (i - 1)
      (nd.1 + fi * b_im1, nd.2 + (fi * fi + b_im1 * b_im1)))
    (j + 1) (N - (j + 1)) (0, 0)

/-- Lines 51-57: the coefficient update through `a_temp`; returns the new
`(a, a_temp)`. -/
def burgCoefUpdate (j : Nat) (k : K) (a a_temp : Buf K) : Buf K × Buf K :=
  let a_temp1 := forUp (fun i (t : Buf K) => Function.update t i (a i + k * a (j - i + 1)))
    1 j a_temp
  let a1 := forUp (fun i (c : Buf K) => Function.update c i (a_temp1 i)) 1 j a
  (Function.update a1 (j + 1) k, a_temp1)

/-- Lines 59-64: the in-place error update,
`for (i = signal_length - 1; i > j; i--)`, overwriting `f[i]` and `b[i]`. -/
def burgErrUpdate (N j : Nat) (k : K) (f b : Buf K) : Buf K × Buf K :=
  forDown (fun i (fb : Buf K × Buf K) =>
      let f_prev := fb.1 i
      let b_prev := fb.2 (i - 1)
      (Function.update fb.1 i (f_prev + k * b_prev),
       Function.update fb.2 i (b_prev + k * f_prev)))
    j (N - 1 - j) (f, b)

/-- The double-buffered error update, as the specification words it:
`f_new[i] = f_old[i] + k*b_old[i-1]` and `b_new[i] = b_old[i-1] + k*f_old[i]`
for `j+1 <= i <= N-1`, every other entry unchanged. -/
def errUpdateSpec (N j : Nat) (k : K) (f b : Buf K) : Buf K × Buf K :=
  (fun i => if j + 1 ≤ i ∧ i ≤ N - 1 then f i + k * b (i - 1) else f i,
   fun i => if j + 1 ≤ i ∧ i ≤ N - 1 then b (i - 1) + k * f i else b i)

/-- Lines 47-64: the body of the order loop past the `den <= 0.0` guard. -/
def burgStep (N : Nat) (s : BurgState K) : BurgState K :=
  let nd := burgNumDen N s.j s.f s.b
  let num := nd.1
  let den := nd.2
  let k := -2 * num / den
  let p := s.p * (1 - k * k)
  let aa := burgCoefUpdate s.j k s.a s.a_temp
  let fb := burgErrUpdate N s.j k s.f s.b
  { j := s.j + 1, a := aa.1, a_temp := aa.2, f := fb.1, b := fb.2, p := p,
    divs := s.divs ++ [(den, k)] }

/-- Lines 32-65: the order loop `for (j = 0; j < order; j++)`. The first
argument is the number of iterations still to run, `order - j`; the `break` on
`den <= 0.0` leaves the loop with the state as it is. -/
def burgLoop (N : Nat) : Nat → BurgState K → BurgState K
  | 0, s => s
  | fuel + 1, s =>
    if (burgNumDen N s.j s.f s.b).2 ≤ 0 then s
    else burgLoop N fuel (burgStep N s)

/-- Lines 18-30: the state on entry to the order loop. `f`, `b` and `a_temp`
come zeroed from `calloc`; `a` is the caller's buffer. -/
def burgInit (signal : Buf K) (N order : Nat) (a : Buf K) : BurgState K :=
  let fb := forUp (fun i (fb : Buf K × Buf K) =>
      (Function.update fb.1 i (signal i), Function.update fb.2 i (signal i)))
    0 N (fun _ => 0, fun _ => 0)
  let p := forUp (fun i (p : K) => p + signal i * signal i) 0 N 0
  let p := p / (N : K)
  let a := forUp (fun i (c : Buf K) => Function.update c i 0) 0 (order + 1) a
  let a := Function.update a 0 1
  { j := 0, a := a, a_temp := fun _ => 0, f := fb.1, b := fb.2, p := p, divs := [] }

/-- Lines 18-65: the state in which `burg_method` leaves its order loop, when
the three buffers were allocated. -/
def burgRun (signal : Buf K) (N order : Nat) (a : Buf K) : BurgState K :=
  burgLoop N order (burgInit signal N order a)

/-- The function `burg_method`: the contents of `a` and the value of
`*variance` on return. `alloc` tells whether the three `calloc` calls
succeeded; when one failed, `*variance = 0` and `a` is untouched. -/
def burg_method (alloc : Bool) (signal : Buf K) (N order : Nat) (a : Buf K) : Buf K × K :=
  if alloc then
    let s := burgRun signal N order a
    (s.a, s.p)
  else (a, 0)

end Burg

/-! ## Binary64 values

The exact-arithmetic reading above cannot show what the code does when a
`double` leaves its range. `Dbl` keeps the three kinds of binary64 value and
follows IEEE 754 on NaN, the infinities, overflow and underflow. A result that
stays in range is kept exact: the rounding of the mantissa is not tracked, nor
is the sign of zero (a zero divisor counts as `+0`). -/

/-- A binary64 value: NaN, an infinity, or a finite real. -/
inductive Dbl : Type
  | nan : Dbl
  | pinf : Dbl
  | ninf : Dbl
  | fin (x : ℝ) : Dbl

namespace Dbl

/-- An exact result of this magnitude or more rounds to an infinity:
`DBL_MAX` plus half a unit in its last place. -/
noncomputable def overflowBound : ℝ := 2 ^ 1024 - 2 ^ 970

/-- An exact result of this magnitude or less rounds to zero: half the least
positive binary64 value `2^-1074`. -/
noncomputable def underflowBound : ℝ := (2 ^ 1075)⁻¹

/-- The value stored for the exact result `x` of an operation on finite
operands. -/
noncomputable def ofReal (x : ℝ) : Dbl :=
  if overflowBound ≤ x then pinf
  else if x ≤ -overflowBound then ninf
  else if |x| ≤ underflowBound then fin 0
  else fin x

/-- The exact result `x` is stored as it is: it is zero, or its magnitude lies
strictly between the underflow and the overflow bound. -/
def InRange (x : ℝ) : Prop := x = 0 ∨ (underflowBound < |x| ∧ |x| < overflowBound)

/-- Unary minus. -/
noncomputable def neg : Dbl → Dbl
  | nan => nan
  | pinf => ninf
  | ninf => pinf
  | fin x => fin (-x)

/-- Addition. -/
noncomputable def add : Dbl → Dbl → Dbl
  | nan, _ => nan
  | _, nan => nan
  | pinf, ninf => nan
  | ninf, pinf => nan
  | pinf, _ => pinf
  | _, pinf => pinf
  | ninf, _ => ninf
  | _, ninf => ninf
  | fin x, fin y => ofReal (x + y)

/-- Subtraction. -/
noncomputable def sub (x y : Dbl) : Dbl := add x (neg y)

/-- An infinity of the sign of `pos` times a finite `y`. -/
noncomputable def infTimes (pos : Bool) (y : ℝ) : Dbl :=
  if y = 0 then nan else if (0 < y) = (pos = true) then pinf else ninf

/-- Multiplication. -/
noncomputable def mul : Dbl → Dbl → Dbl
  | nan, _ => nan
  | _, nan => nan
  | pinf, pinf => pinf
  | pinf, ninf => ninf
  | ninf, pinf => ninf
  | ninf, ninf => pinf
  | pinf, fin y => infTimes true y
  | ninf, fin y => infTimes false y
  | fin x, pinf => infTimes true x
  | fin x, ninf => infTimes false x
  | fin x, fin y => ofReal (x * y)

/-- Division. -/
noncomputable def div : Dbl → Dbl → Dbl
  | nan, _ => nan
  | _, nan => nan
  | pinf, pinf => nan
  | pinf, ninf => nan
  | ninf, pinf => nan
  | ninf, ninf => nan
  | pinf, fin y => if 0 ≤ y then pinf else ninf
  | ninf, fin y => if 0 ≤ y then ninf else pinf
  | fin _, pinf => fin 0
  | fin _, ninf => fin 0
  | fin x, fin y =>
    if y = 0 then (if x = 0 then nan else if 0 < x then pinf else ninf)
    else ofReal (x / y)

/-- The comparison `x <= y`: false as soon as one side is NaN. -/
def le : Dbl → Dbl → Prop
  | nan, _ => False
  | _, nan => False
  | ninf, _ => True
  | _, pinf => True
  | pinf, _ => False
  | _, ninf => False
  | fin x, fin y => x ≤ y

/-- The comparison `x < y`: false as soon as one side is NaN. -/
def lt : Dbl → Dbl → Prop
  | nan, _ => False
  | _, nan => False
  | pinf, _ => False
  | _, ninf => False
  | ninf, _ => True
  | _, pinf => True
  | fin x, fin y => x < y

/-- The conversion `(double)n` of an `int`. -/
def ofInt (n : Int) : Dbl := fin (n : ℝ)

/-- The library function `log`. -/
noncomputable def log : Dbl → Dbl
  | nan => nan
  | pinf => pinf
  | ninf => nan
  | fin x => if x < 0 then nan else if x = 0 then ninf else ofReal (Real.log x)

/-- The library function `hypot`, which `cabs` is. -/
noncomputable def hypot : Dbl → Dbl → Dbl
  | pinf, _ => pinf
  | ninf, _ => pinf
  | _, pinf => pinf
  | _, ninf => pinf
  | nan, _ => nan
  | _, nan => nan
  | fin x, fin y => ofReal (Real.sqrt (x * x + y * y))

end Dbl

instance : Zero Dbl := ⟨Dbl.fin 0⟩

instance : One Dbl := ⟨Dbl.fin 1⟩

instance : NatCast Dbl := ⟨fun n => Dbl.fin (n : ℝ)⟩

instance (n : Nat) : OfNat Dbl (n + 2) := ⟨Dbl.fin ((n + 2 : Nat) : ℝ)⟩

noncomputable instance : Neg Dbl := ⟨Dbl.neg⟩

noncomputable instance : Add Dbl := ⟨Dbl.add⟩

noncomputable instance : Sub Dbl := ⟨Dbl.sub⟩

noncomputable instance : Mul Dbl := ⟨Dbl.mul⟩

noncomputable instance : Div Dbl := ⟨Dbl.div⟩

instance : LE Dbl := ⟨Dbl.le⟩

instance : LT Dbl := ⟨Dbl.lt⟩

noncomputable instance : DecidableRel (fun a b : Dbl => a ≤ b) :=
  fun _ _ => Classical.propDecidable _

noncomputable instance : DecidableRel (fun a b : Dbl => a < b) :=
  fun _ _ => Classical.propDecidable _

/-- The constant signal `2^600, 2^600, ...` in binary64. -/
noncomputable def sigHuge : Buf Dbl := fun _ => Dbl.fin (2 ^ 600)

/-- A caller's coefficient buffer of binary64 zeros. -/
def bufDblZero : Buf Dbl := fun _ => Dbl.fin 0

/-- A binary64 `double complex`: real and imaginary part. -/
structure CDbl where
  /-- real part -/
  re : Dbl
  /-- imaginary part -/
  im : Dbl

namespace CDbl

/-- The conversion of a `double` to `double complex`. -/
def ofDbl (x : Dbl) : CDbl := ⟨x, 0⟩

/-- Complex addition. -/
noncomputable def add (z w : CDbl) : CDbl := ⟨z.re + w.re, z.im + w.im⟩

/-- Complex multiplication, by the textbook formula (the recovery of
infinities from NaN products is not tracked). -/
noncomputable def mul (z w : CDbl) : CDbl :=
  ⟨z.re * w.re - z.im * w.im, z.re * w.im + z.im * w.re⟩

/-- The product `x * z` of a `double` and a `double complex`. -/
noncomputable def scale (x : Dbl) (z : CDbl) : CDbl := ⟨x * z.re, x * z.im⟩

/-- The value `-I * omega`. -/
noncomputable def negIMul (omega : Dbl) : CDbl := ⟨Dbl.fin 0 * omega, Dbl.fin (-1) * omega⟩

/-- The library function `cexp`: `e^x (cos y + i sin y)` on a finite argument
(on any other argument the result is taken as NaN). -/
noncomputable def cexp (z : CDbl) : CDbl :=
  match z.re, z.im with
  | Dbl.fin x, Dbl.fin y =>
    ⟨Dbl.ofReal (Real.exp x * Real.cos y), Dbl.ofReal (Real.exp x * Real.sin y)⟩
  | _, _ => ⟨Dbl.nan, Dbl.nan⟩

/-- The library function `cabs`. -/
noncomputable def cabs (z : CDbl) : Dbl := Dbl.hypot z.re z.im

end CDbl

/-- Lines 15-19 of `psd.c` on binary64 values: the loop
`for (k = 1; k <= order; k++) { den += a[k] * wk; wk *= w; }` started from
`den = 1.0`, `wk = w`; returns the final `(den, wk)`. -/
noncomputable def psdDenLoop64 (a : Buf Dbl) (order : Nat) (w : CDbl) : CDbl × CDbl :=
  forUp (fun k (dw : CDbl × CDbl) => (CDbl.add dw.1 (CDbl.scale (a k) dw.2), CDbl.mul dw.2 w))
    1 order (CDbl.ofDbl 1, w)

/-- Lines 7-22 of `psd.c` on binary64 values: the value stored in `psd[i]`. -/
noncomputable def psdBin64 (a : Buf Dbl) (order : Nat) (variance : Dbl) (n_freq i : Nat) : Dbl :=
  let omega : Dbl := 2 * Dbl.fin Real.pi * (i : Dbl) / (2 * Dbl.ofInt ((n_freq : Int) - 1))
  let w : CDbl := CDbl.cexp (CDbl.negIMul omega)
  let den : CDbl := (psdDenLoop64 a order w).1
  variance / (CDbl.cabs den * CDbl.cabs den)

/-- The function `calculate_psd` on binary64 values: the contents of `psd` on
return. -/
noncomputable def calculate_psd64 (a : Buf Dbl) (order : Nat) (variance : Dbl) (n_freq : Nat)
    (psd : Buf Dbl) : Buf Dbl :=
  forUp (fun i (out : Buf Dbl) => Function.update out i (psdBin64 a order variance n_freq i))
    0 n_freq psd

/-! ### Peak extraction on binary64 values

The C library's `log10` is not part of the repository and IEEE 754 does not fix
how it rounds, so it is a parameter here. -/

/-- The function `to_db` on binary64 values. -/
noncomputable def to_db64 (log10 : Dbl → Dbl) (value : Dbl) : Dbl :=
  if value ≤ 0 then Dbl.fin (-200) else 10 * log10 value

/-- Lines 20-23 on binary64 values: the running maximum `max_psd_val`, started
at `0.0`. -/
noncomputable def maxPsdVal64 (psd : Buf Dbl) (n_freq : Nat) : Dbl :=
  forUp (fun i (m : Dbl) => if psd i > m then psd i else m) 0 n_freq 0

/-- The divisor `y_minus_1 - 2.0 * y_0 + y_plus_1` of lines 35-40 on binary64
values. -/
noncomputable def peakDivisor64 (log10 : Dbl → Dbl) (psd : Buf Dbl) (i : Nat) : Dbl :=
  let y_minus_1 := to_db64 log10 (psd (i - 1))
  let y_0 := to_db64 log10 (psd i)
  let y_plus_1 := to_db64 log10 (psd (i + 1))
  y_minus_1 - 2 * y_0 + y_plus_1

/-- The parabolic offset `p` of lines 35-40 on binary64 values. -/
noncomputable def peakOffset64 (log10 : Dbl → Dbl) (psd : Buf Dbl) (i : Nat) : Dbl :=
  let y_minus_1 := to_db64 log10 (psd (i - 1))
  let y_0 := to_db64 log10 (psd i)
  let y_plus_1 := to_db64 log10 (psd (i + 1))
  Dbl.fin 0.5 * (y_minus_1 - y_plus_1) / (y_minus_1 - 2 * y_0 + y_plus_1)

/-- The acceptance test of line 31 on binary64 values. -/
def peakAccepted64 (log10 : Dbl → Dbl) (psd : Buf Dbl) (n_freq : Nat) (threshold_db : Dbl)
    (i : Nat) : Prop :=
  psd i > psd (i - 1) ∧ psd i > psd (i + 1) ∧
    to_db64 log10 (psd i) > to_db64 log10 (maxPsdVal64 psd n_freq) + threshold_db

/-- What any usable `log10` does on the binade `[2^34, 2^35)`, which lies
inside `[1e10, 1e11)`: it sends each of its `2^52` binary64 values `m·2^-18` to
a binary64 value `k·2^-49` between 10 and 11. -/
def Log10InDecade (log10 : Dbl → Dbl) : Prop :=
  ∀ m : Nat, 2 ^ 52 ≤ m → m < 2 ^ 53 →
    ∃ k : Nat, 10 * 2 ^ 49 ≤ k ∧ k ≤ 11 * 2 ^ 49 ∧
      log10 (Dbl.fin ((m : ℝ) / 2 ^ 18)) = Dbl.fin ((k : ℝ) / 2 ^ 49)

/-- A `log10` that rounds the exact logarithm down to a multiple of `2^-49`. -/
noncomputable def log10Down : Dbl → Dbl
  | Dbl.fin x => Dbl.fin ((⌊Real.logb 10 x * 2 ^ 49⌋₊ : ℝ) / 2 ^ 49)
  | _ => Dbl.nan

/-- The PSD array `[x, x', x]` in binary64. -/
def psdTriple (x x' : ℝ) : Buf Dbl := fun i => if i = 1 then Dbl.fin x' else Dbl.fin x

/-- The coefficients `a = [1, -1, t]` over the reals. -/
def coefCancel (t : ℝ) : Buf ℝ := fun i =>
  match i with
  | 0 => 1
  | 1 => -1
  | 2 => t
  | _ => 0

/-- The coefficients `a = [1, -1, t]` as binary64 values. -/
def coefCancel64 (t : ℝ) : Buf Dbl := fun i => Dbl.fin (coefCancel t i)

/-! Sample inputs over `ℚ`, on which the definitions above evaluate. -/

/-- The ramp `1, 2, 3, ...`. -/
def sigRamp : Buf ℚ := fun i => (i : ℚ) + 1

/-- The constant signal `3, 3, 3, ...`. -/
def sigThree : Buf ℚ := fun _ => 3

/-- A caller's coefficient buffer holding `7` everywhere. -/
def bufSeven : Buf ℚ := fun _ => 7

/-- A caller's coefficient buffer holding `-2` everywhere. -/
def bufMinusTwo : Buf ℚ := fun _ => -2

/-! ## Spectral synthesis (`psd.c`) -/

/-- Lines 15-19 of `psd.c`: the loop
`for (k = 1; k <= order; k++) { den += a[k] * wk; wk *= w; }` started from
`den = 1.0`, `wk = w`; returns the final `(den, wk)`. -/
def psdDenLoop (a : Buf ℝ) (order : Nat) (w : ℂ) : ℂ × ℂ :=
  forUp (fun k (dw : ℂ × ℂ) => (dw.1 + (a k : ℂ) * dw.2, dw.2 * w)) 1 order (1, w)

/-- Lines 7-22 of `psd.c`: the value stored in `psd[i]`. -/
noncomputable def psdBin (a : Buf ℝ) (order : Nat) (variance : ℝ) (n_freq i : Nat) : ℝ :=
  let omega : ℝ := 2 * Real.pi * (i : ℝ) / (2 * ((n_freq : ℝ) - 1))
  let w : ℂ := Complex.exp (-Complex.I * (omega : ℂ))
  let den : ℂ := (psdDenLoop a order w).1
  variance / (Complex.abs den * Complex.abs den)

/-- The function `calculate_psd`: the contents of `psd` on return. -/
noncomputable def calculate_psd (a : Buf ℝ) (order : Nat) (variance : ℝ) (n_freq : Nat)
    (psd : Buf ℝ) : Buf ℝ :=
  forUp (fun i (out : Buf ℝ) => Function.update out i (psdBin a order variance n_freq i))
    0 n_freq psd

/-- The denominator polynomial as the specification writes it:
`D(ω) = 1 + Σ_{k=1..order} a[k]·e^{-jkω}`. -/
noncomputable def arDenominator (a : Buf ℝ) (order : Nat) (omega : ℝ) : ℂ :=
  1 + ∑ k in Finset.Icc 1 order, (a k : ℂ) * Complex.exp (-Complex.I * (k : ℂ) * (omega : ℂ))

/-- The coefficients `a = [1, -0.5]`. -/
noncomputable def coefHalf : Buf ℝ := fun i =>
  match i with
  | 0 => 1
  | 1 => -(1 / 2)
  | _ => 0

/-! ## Peak extraction (`peak_analysis.c`) -/

/-- The function `to_db`: power to decibels, floored at `-200` for
non-positive values. -/
noncomputable def to_db (value : ℝ) : ℝ :=
  if value ≤ 0 then -200 else 10 * Real.logb 10 value

/-- One line of the peak file: the values `corrected_freq`, `y_0` and `width`
printed by `fprintf`, together with the bin `i` at which the line is written
(`index` is kept for reference and is not printed). -/
structure PeakInfo where
  /-- the bin `i` of the local maximum -/
  index : Nat
  /-- the value `corrected_freq` -/
  frequency : ℝ
  /-- the value `y_0` -/
  power_db : ℝ
  /-- the value `width` -/
  width_hz : ℝ

/-- Lines 20-23: the running maximum `max_psd_val`, started at `0.0`. -/
noncomputable def maxPsdVal (psd : Buf ℝ) (n_freq : Nat) : ℝ :=
  forUp (fun i (m : ℝ) => if psd i > m then psd i else m) 0 n_freq 0

/-- Line 51: `while (l_idx > 0 && to_db(psd[l_idx]) > half_power_db) l_idx--;`
as a function of the current `l_idx`. -/
noncomputable def scanLeft (psd : Buf ℝ) (half_power_db : ℝ) : Nat → Nat
  | 0 => 0
  | l + 1 => if to_db (psd (l + 1)) > half_power_db then scanLeft psd half_power_db l else l + 1

/-- Line 53:
`while (r_idx < n_freq - 1 && to_db(psd[r_idx]) > half_power_db) r_idx++;`.
The first argument is the distance `n_freq - 1 - r_idx` still open. -/
noncomputable def scanRight (psd : Buf ℝ) (half_power_db : ℝ) : Nat → Nat → Nat
  | 0, r => r
  | gap + 1, r =>
    if to_db (psd r) > half_power_db then scanRight psd half_power_db gap (r + 1) else r

/-- The parabolic offset of lines 35-40 at bin `i`:
`p = 0.5 * (y_minus_1 - y_plus_1) / (y_minus_1 - 2.0 * y_0 + y_plus_1)`. -/
noncomputable def peakOffset (psd : Buf ℝ) (i : Nat) : ℝ :=
  let y_minus_1 := to_db (psd (i - 1))
  let y_0 := to_db (psd i)
  let y_plus_1 := to_db (psd (i + 1))
  0.5 * (y_minus_1 - y_plus_1) / (y_minus_1 - 2 * y_0 + y_plus_1)

/-- Lines 29-59: the body of the peak loop at bin `i`: the lines it writes
(one or none). -/
noncomputable def peakAt (psd : Buf ℝ) (n_freq : Nat) (threshold_db max_db freq_per_bin : ℝ)
    (i : Nat) : List PeakInfo :=
  let current_db := to_db (psd i)
  if psd i > psd (i - 1) ∧ psd i > psd (i + 1) ∧ current_db > max_db + threshold_db then
    let y_0 := to_db (psd i)
    let p := peakOffset psd i
    let corrected_index := (i : ℝ) + p
    let corrected_freq := corrected_index * freq_per_bin
    let half_power_db := y_0 - 3
    let l_idx := scanLeft psd half_power_db i
    let r_idx := scanRight psd half_power_db (n_freq - 1 - i) i
    let width := ((r_idx : ℝ) - (l_idx : ℝ)) * freq_per_bin
    [{ index := i, frequency := corrected_freq, power_db := y_0, width_hz := width }]
  else []

/-- The function `analyze_and_write_peaks`: the peak lines written to the file,
in the order written. `opened` tells whether `fopen` succeeded; when it failed
nothing is written. -/
noncomputable def analyze_and_write_peaks (opened : Bool) (psd : Buf ℝ) (n_freq : Nat)
    (sample_rate threshold_db : ℝ) : List PeakInfo :=
  if opened then
    let max_db := to_db (maxPsdVal psd n_freq)
    let freq_per_bin := (sample_rate / 2) / ((n_freq : ℝ) - 1)
    forUp (fun i (out : List PeakInfo) =>
        out ++ peakAt psd n_freq threshold_db max_db freq_per_bin i)
      1 (n_freq - 1 - 1) []
  else []

/-- The PSD array `[0, 1e-25, 1e-29, 1e-28, 1e-29]`. -/
noncomputable def psdTiny : Buf ℝ := fun i =>
  match i with
  | 1 => ((10 : ℝ) ^ 25)⁻¹
  | 2 => ((10 : ℝ) ^ 29)⁻¹
  | 3 => ((10 : ℝ) ^ 28)⁻¹
  | 4 => ((10 : ℝ) ^ 29)⁻¹
  | _ => 0

/-- The PSD array `[1, 2, 1, 2, 1, ...]`. -/
def psdBump : Buf ℝ := fun i => if i % 2 = 1 then 2 else 1

/-- The PSD array `[0, 1e-20, 0]`. -/
noncomputable def psdFlat : Buf ℝ := fun i =>
  match i with
  | 1 => ((10 : ℝ) ^ 20)⁻¹
  | _ => 0

/-- The line written at bin 1 for `psdBump` with `n_freq = 5`,
`sample_rate = 100`. -/
noncomputable def bumpRecord : PeakInfo :=
  { index := 1
    frequency := ((1 : Nat) + peakOffset psdBump 1) * ((100 / 2) / (((5 : Nat) : ℝ) - 1))
    power_db := to_db (psdBump 1)
    width_hz := ((scanRight psdBump (to_db (psdBump 1) - 3) (5 - 1 - 1) 1 : ℝ)
        - (scanLeft psdBump (to_db (psdBump 1) - 3) 1 : ℝ))
      * ((100 / 2) / (((5 : Nat) : ℝ) - 1)) }

/-! ## Windowing and AIC (`dsp_utils.c`) -/

/-- Line 8 of `dsp_utils.c`: the value `multiplier` at index `i`. -/
noncomputable def hanningMultiplier (signal_length i : Nat) : ℝ :=
  0.5 * (1 - Real.cos (2 * Real.pi * (i : ℝ) / ((signal_length : ℝ) - 1)))

/-- The function `apply_hanning_window`: the contents of `signal` on return. -/
noncomputable def apply_hanning_window (signal : Buf ℝ) (signal_length : Nat) : Buf ℝ :=
  forUp (fun i (s : Buf ℝ) => Function.update s i (s i * hanningMultiplier signal_length i))
    0 signal_length signal

/-- Two's-complement wrap-around of a 32-bit `int` result, as the compiled
code computes `order + 1`. -/
def wrap32 (x : Int) : Int := (x + 2 ^ 31) % 2 ^ 32 - 2 ^ 31

/-- The function `calculate_aic`, on binary64 values: `variance` may be any
`double` and the result may be `INFINITY`. -/
noncomputable def calculate_aic (signal_length order : Int) (variance : Dbl) : Dbl :=
  if variance ≤ 0 then Dbl.pinf
  else Dbl.ofInt signal_length * Dbl.log variance + 2 * Dbl.ofInt (wrap32 (order + 1))

/-! ## The pipeline of `main.c` -/

/-- Lines 28-64 of `main.c`: window, Burg, spectrum on `n_freq = 4096` bins,
peaks at `-40.0` dB; the peak lines written. `a` and `psd` are the (not
initialised) stack arrays; allocation and `fopen` succeed. -/
noncomputable def mainPeaks (signal : Buf ℝ) (signal_length : Nat) (sample_rate : ℝ)
    (model_order : Nat) (a psd : Buf ℝ) : List PeakInfo :=
  let signal := apply_hanning_window signal signal_length
  let av := burg_method true signal signal_length model_order a
  let n_freq := 4096
  let psd := calculate_psd av.1 model_order av.2 n_freq psd
  analyze_and_write_peaks true psd n_freq sample_rate (-40)

/-- The noise-free sinusoid `x[n] = sin(2π·f0·n/sample_rate)`. -/
noncomputable def sinusoid (f0 sample_rate : ℝ) : Buf ℝ := fun n =>
  Real.sin (2 * Real.pi * f0 * (n : ℝ) / sample_rate)

/-! ## Binary64 arithmetic: evaluation rules -/

namespace Dbl

theorem zero_def : (0 : Dbl) = fin 0 := rfl

theorem one_def : (1 : Dbl) = fin 1 := rfl

theorem two_def : (2 : Dbl) = fin 2 := by
  show fin (((0 + 2 : Nat)) : ℝ) = fin 2
  norm_num

theorem natCast_def (n : Nat) : ((n : Nat) : Dbl) = fin (n : ℝ) := rfl

theorem neg_fin (x : ℝ) : -(fin x) = fin (-x) := rfl

theorem fin_add_fin (x y : ℝ) : fin x + fin y = ofReal (x + y) := rfl

theorem fin_mul_fin (x y : ℝ) : fin x * fin y = ofReal (x * y) := rfl

theorem fin_sub_fin (x y : ℝ) : fin x - fin y = ofReal (x - y) := by
  show add (fin x) (neg (fin y)) = _
  rw [sub_eq_add_neg]
  rfl

theorem fin_add_pinf (x : ℝ) : fin x + pinf = pinf := rfl

theorem pinf_add_pinf : pinf + pinf = pinf := rfl

theorem pinf_add_fin (x : ℝ) : pinf + fin x = pinf := rfl

theorem nan_add (x : Dbl) : nan + x = nan := by
  cases x <;> rfl

theorem add_nan (x : Dbl) : x + nan = nan := by
  cases x <;> rfl

theorem nan_mul (x : Dbl) : nan * x = nan := by
  cases x <;> rfl

theorem mul_nan (x : Dbl) : x * nan = nan := by
  cases x <;> rfl

theorem nan_sub (x : Dbl) : nan - x = nan := by
  cases x <;> rfl

theorem sub_nan (x : Dbl) : x - nan = nan := by
  cases x <;> rfl

theorem nan_div (x : Dbl) : nan / x = nan := by
  cases x <;> rfl

theorem div_nan (x : Dbl) : x / nan = nan := by
  cases x <;> rfl

theorem not_nan_le (x : Dbl) : ¬ (nan ≤ x) := by
  cases x <;> exact fun h => h

theorem not_le_nan (x : Dbl) : ¬ (x ≤ nan) := by
  cases x <;> exact fun h => h

theorem not_pinf_le_fin (x : ℝ) : ¬ (pinf ≤ fin x) := fun h => h

theorem fin_le_fin (x y : ℝ) : (fin x ≤ fin y) ↔ x ≤ y := Iff.rfl

theorem fin_lt_fin (x y : ℝ) : (fin x < fin y) ↔ x < y := Iff.rfl

theorem pinf_div_fin_pos (y : ℝ) (hy : 0 ≤ y) : pinf / fin y = pinf := by
  show (if 0 ≤ y then pinf else ninf) = pinf
  rw [if_pos hy]

theorem fin_neg_mul_pinf (x : ℝ) (hx : x < 0) : fin x * pinf = ninf := by
  show infTimes true x = ninf
  unfold infTimes
  rw [if_neg (ne_of_lt hx), if_neg]
  simp [not_lt.mpr (le_of_lt hx)]

theorem ninf_div_pinf : ninf / pinf = nan := rfl

theorem fin_div_pinf (x : ℝ) : fin x / pinf = fin 0 := rfl

theorem ofReal_of_large (x : ℝ) (h : overflowBound ≤ x) : ofReal x = pinf := by
  unfold ofReal
  rw [if_pos h]

theorem overflowBound_pos : 0 < overflowBound := by
  unfold overflowBound
  norm_num

theorem underflowBound_pos : 0 < underflowBound := by
  unfold underflowBound
  positivity

theorem underflowBound_lt_overflowBound : underflowBound < overflowBound := by
  unfold underflowBound overflowBound
  norm_num

theorem ofReal_of_small (x : ℝ) (h : |x| ≤ underflowBound) : ofReal x = fin 0 := by
  have h1 := abs_le.mp h
  have h2 := underflowBound_lt_overflowBound
  unfold ofReal
  rw [if_neg (by linarith), if_neg (by linarith), if_pos h]

theorem ofReal_of_mid (x : ℝ) (h1 : underflowBound < |x|) (h2 : |x| < overflowBound) :
    ofReal x = fin x := by
  have h3 := abs_lt.mp h2
  unfold ofReal
  rw [if_neg (by linarith), if_neg (by linarith), if_neg (not_le.mpr h1)]

theorem ofReal_zero : ofReal 0 = fin 0 :=
  ofReal_of_small 0 (by rw [abs_zero]; exact le_of_lt underflowBound_pos)

end Dbl

theorem Dbl.ofReal_of_pos_mid (x : ℝ) (h1 : Dbl.underflowBound < x) (h2 : x < Dbl.overflowBound) :
    Dbl.ofReal x = Dbl.fin x := by
  have hx : 0 < x := lt_trans Dbl.underflowBound_pos h1
  exact Dbl.ofReal_of_mid x (by rw [abs_of_pos hx]; exact h1) (by rw [abs_of_pos hx]; exact h2)

theorem Dbl.underflowBound_lt_one : Dbl.underflowBound < 1 := by
  unfold Dbl.underflowBound
  rw [inv_lt_one_iff₀]
  right
  norm_num

theorem Dbl.eight_lt_overflowBound : 8 < Dbl.overflowBound := by
  unfold Dbl.overflowBound
  norm_num

theorem Dbl.ofReal_one : Dbl.ofReal 1 = Dbl.fin 1 :=
  Dbl.ofReal_of_pos_mid 1 Dbl.underflowBound_lt_one
    (by have := Dbl.eight_lt_overflowBound; linarith)

theorem Dbl.ofReal_two : Dbl.ofReal 2 = Dbl.fin 2 :=
  Dbl.ofReal_of_pos_mid 2 (by have := Dbl.underflowBound_lt_one; linarith)
    (by have := Dbl.eight_lt_overflowBound; linarith)

theorem Dbl.ofReal_neg_one : Dbl.ofReal (-1) = Dbl.fin (-1) :=
  Dbl.ofReal_of_mid (-1) (by rw [abs_neg, abs_one]; exact Dbl.underflowBound_lt_one)
    (by rw [abs_neg, abs_one]; have := Dbl.eight_lt_overflowBound; linarith)

/-! ## Loop lemmas -/

section LoopLemmas

theorem forUp_add {σ : Type} (body : Nat → σ → σ) (lo m n : Nat) (s : σ) :
    forUp body lo (m + n) s = forUp body (lo + m) n (forUp body lo m s) := by
  induction m generalizing lo s with
  | zero => simp [forUp]
  | succ m ih =>
    rw [Nat.add_right_comm, forUp, forUp, ih]
    congr 1
    omega

theorem forUp_succ_last {σ : Type} (body : Nat → σ → σ) (lo n : Nat) (s : σ) :
    forUp body lo (n + 1) s = body (lo + n) (forUp body lo n s) := by
  rw [forUp_add]
  simp [forUp]

/-- A loop that stores `v i` at index `i` of a buffer. -/
theorem forUp_store {α : Type} (v : Nat → α) (lo n : Nat) (c : Nat → α) (i : Nat) :
    forUp (fun i (c : Nat → α) => Function.update c i (v i)) lo n c i
      = if lo ≤ i ∧ i < lo + n then v i else c i := by
  induction n with
  | zero => rw [forUp, if_neg (by omega)]
  | succ n ih =>
    rw [forUp_succ_last]
    by_cases h : i = lo + n
    · subst h; simp
    · rw [Function.update_noteq h, ih]
      by_cases h1 : lo ≤ i ∧ i < lo + n
      · rw [if_pos h1, if_pos ⟨h1.1, by omega⟩]
      · rw [if_neg h1, if_neg (by omega)]

variable {K : Type} [LinearOrderedField K]

/-- An accumulating loop is the sum of its terms. -/
theorem forUp_sum (g : Nat → K) (lo n : Nat) (acc : K) :
    forUp (fun i (s : K) => s + g i) lo n acc
      = acc + ∑ i in Finset.range n, g (lo + i) := by
  induction n with
  | zero => simp [forUp]
  | succ n ih => rw [forUp_succ_last, ih, Finset.sum_range_succ, add_assoc]

/-- Closed form of the descending in-place error loop run over `n` indices. -/
theorem errLoop_closed (k : K) (j n : Nat) (f b : Buf K) :
    forDown (fun i (fb : Buf K × Buf K) =>
        let f_prev := fb.1 i
        let b_prev := fb.2 (i - 1)
        (Function.update fb.1 i (f_prev + k * b_prev),
         Function.update fb.2 i (b_prev + k * f_prev)))
      j n (f, b)
    = (fun i => if j + 1 ≤ i ∧ i ≤ j + n then f i + k * b (i - 1) else f i,
       fun i => if j + 1 ≤ i ∧ i ≤ j + n then b (i - 1) + k * f i else b i) := by
  induction n generalizing f b with
  | zero =>
    rw [forDown]
    refine Prod.ext (funext fun i => ?_) (funext fun i => ?_) <;>
      simp only [] <;> rw [if_neg (by omega)]
  | succ n ih =>
    rw [forDown]
    simp only []
    rw [ih]
    refine Prod.ext (funext fun i => ?_) (funext fun i => ?_)
    · simp only []
      by_cases h : i = j + n + 1
      · subst h
        rw [if_neg (by omega), if_pos (by omega), Function.update_same]
      · by_cases h1 : j + 1 ≤ i ∧ i ≤ j + n
        · rw [if_pos h1, if_pos (by omega), Function.update_noteq h,
            Function.update_noteq (by omega)]
        · rw [if_neg h1, if_neg (by omega), Function.update_noteq h]
    · simp only []
      by_cases h : i = j + n + 1
      · subst h
        rw [if_neg (by omega), if_pos (by omega), Function.update_same]
      · by_cases h1 : j + 1 ≤ i ∧ i ≤ j + n
        · rw [if_pos h1, if_pos (by omega), Function.update_noteq h,
            Function.update_noteq (by omega)]
        · rw [if_neg h1, if_neg (by omega), Function.update_noteq h]

theorem burgErrUpdate_eq (N j : Nat) (k : K) (f b : Buf K) :
    burgErrUpdate N j k f b = errUpdateSpec N j k f b := by
  unfold burgErrUpdate errUpdateSpec
  rw [errLoop_closed]
  refine Prod.ext (funext fun i => ?_) (funext fun i => ?_)
  · simp only []
    by_cases h : j + 1 ≤ i ∧ i ≤ N - 1
    · rw [if_pos h, if_pos (by omega)]
    · rw [if_neg h, if_neg (by omega)]
  · simp only []
    by_cases h : j + 1 ≤ i ∧ i ≤ N - 1
    · rw [if_pos h, if_pos (by omega)]
    · rw [if_neg h, if_neg (by omega)]

/-! ## Burg recursion: closed forms of the loops -/

/-- A loop accumulating two sums at once. -/
theorem forUp_sum2 (g h : Nat → K) (lo n : Nat) (x y : K) :
    forUp (fun i (nd : K × K) => (nd.1 + g i, nd.2 + h i)) lo n (x, y)
      = (x + ∑ i in Finset.range n, g (lo + i), y + ∑ i in Finset.range n, h (lo + i)) := by
  induction n with
  | zero => simp [forUp]
  | succ n ih =>
    rw [forUp_succ_last, ih, Finset.sum_range_succ, Finset.sum_range_succ]
    simp only [add_assoc]

/-- A loop storing into two buffers at once. -/
theorem forUp_store2 {α : Type} (v w : Nat → α) (lo n : Nat) (c d : Nat → α) :
    forUp (fun i (fb : (Nat → α) × (Nat → α)) =>
        (Function.update fb.1 i (v i), Function.update fb.2 i (w i))) lo n (c, d)
      = (forUp (fun i (c : Nat → α) => Function.update c i (v i)) lo n c,
         forUp (fun i (c : Nat → α) => Function.update c i (w i)) lo n d) := by
  induction n with
  | zero => simp [forUp]
  | succ n ih => rw [forUp_succ_last, forUp_succ_last, forUp_succ_last, ih]

theorem burgNumDen_eq (N j : Nat) (f b : Buf K) :
    burgNumDen N j f b
      = (∑ i in Finset.range (N - (j + 1)), f (j + 1 + i) * b (j + i),
         ∑ i in Finset.range (N - (j + 1)),
           (f (j + 1 + i) * f (j + 1 + i) + b (j + i) * b (j + i))) := by
  have h := forUp_sum2 (fun i => f i * b (i - 1))
    (fun i => f i * f i + b (i - 1) * b (i - 1)) (j + 1) (N - (j + 1)) 0 0
  simp only [zero_add] at h
  have e : ∀ i, j + 1 + i - 1 = j + i := fun i => by omega
  simp only [e] at h
  exact h

/-- The numerator is dominated by the denominator: `|2 num| <= den`. -/
theorem burgNumDen_bound (N j : Nat) (f b : Buf K) :
    -(burgNumDen N j f b).2 ≤ 2 * (burgNumDen N j f b).1 ∧
      2 * (burgNumDen N j f b).1 ≤ (burgNumDen N j f b).2 := by
  rw [burgNumDen_eq]
  simp only []
  rw [Finset.mul_sum]
  constructor
  · rw [neg_le_iff_add_nonneg, ← Finset.sum_add_distrib]
    refine Finset.sum_nonneg fun i _ => ?_
    nlinarith [sq_nonneg (f (j + 1 + i) + b (j + i))]
  · rw [← sub_nonneg, ← Finset.sum_sub_distrib]
    refine Finset.sum_nonneg fun i _ => ?_
    nlinarith [sq_nonneg (f (j + 1 + i) - b (j + i))]

/-- The reflection coefficient of a step: `-2.0 * num / den`. -/
theorem burg_k_sq_le_one (N j : Nat) (f b : Buf K) (hden : 0 < (burgNumDen N j f b).2) :
    |(-2 * (burgNumDen N j f b).1 / (burgNumDen N j f b).2)| ≤ 1 := by
  obtain ⟨h1, h2⟩ := burgNumDen_bound N j f b
  rw [abs_le]
  constructor
  · rw [le_div_iff₀ hden]; linarith
  · rw [div_le_iff₀ hden]; linarith

theorem burgCoefUpdate_fst (j : Nat) (k : K) (a t : Buf K) (i : Nat) :
    (burgCoefUpdate j k a t).1 i
      = if 1 ≤ i ∧ i ≤ j then a i + k * a (j - i + 1)
        else if i = j + 1 then k else a i := by
  unfold burgCoefUpdate
  simp only []
  by_cases h : i = j + 1
  · subst h
    rw [Function.update_same, if_neg (by omega), if_pos rfl]
  · rw [Function.update_noteq h, forUp_store, forUp_store]
    by_cases h1 : 1 ≤ i ∧ i ≤ j
    · rw [if_pos (by omega), if_pos (by omega), if_pos h1]
    · rw [if_neg (by omega), if_neg h1, if_neg h]

theorem burgInit_j (signal : Buf K) (N order : Nat) (a : Buf K) :
    (burgInit signal N order a).j = 0 := rfl

theorem burgInit_divs (signal : Buf K) (N order : Nat) (a : Buf K) :
    (burgInit signal N order a).divs = [] := rfl

theorem burgInit_f (signal : Buf K) (N order : Nat) (a : Buf K) :
    (burgInit signal N order a).f = fun i => if i < N then signal i else 0 := by
  unfold burgInit
  simp only []
  rw [forUp_store2]
  funext i
  simp only []
  rw [forUp_store]
  by_cases h : i < N
  · rw [if_pos (by omega), if_pos h]
  · rw [if_neg (by omega), if_neg h]

theorem burgInit_b (signal : Buf K) (N order : Nat) (a : Buf K) :
    (burgInit signal N order a).b = fun i => if i < N then signal i else 0 := by
  unfold burgInit
  simp only []
  rw [forUp_store2]
  funext i
  simp only []
  rw [forUp_store]
  by_cases h : i < N
  · rw [if_pos (by omega), if_pos h]
  · rw [if_neg (by omega), if_neg h]

theorem burgInit_p (signal : Buf K) (N order : Nat) (a : Buf K) :
    (burgInit signal N order a).p
      = (∑ i in Finset.range N, signal i * signal i) / (N : K) := by
  unfold burgInit
  simp only []
  rw [forUp_sum]
  simp

theorem burgInit_a (signal : Buf K) (N order : Nat) (a : Buf K) (i : Nat) :
    (burgInit signal N order a).a i
      = if i = 0 then 1 else if i ≤ order then 0 else a i := by
  unfold burgInit
  simp only []
  by_cases h : i = 0
  · subst h
    rw [Function.update_same, if_pos rfl]
  · rw [Function.update_noteq h, forUp_store, if_neg h]
    by_cases h1 : i ≤ order
    · rw [if_pos (by omega), if_pos h1]
    · rw [if_neg (by omega), if_neg h1]

/-! ## Burg recursion: the order loop -/

theorem burgLoop_break (N fuel : Nat) (s : BurgState K)
    (h : (burgNumDen N s.j s.f s.b).2 ≤ 0) : burgLoop N fuel s = s := by
  cases fuel with
  | zero => rfl
  | succ n => rw [burgLoop, if_pos h]

theorem burgLoop_step (N fuel : Nat) (s : BurgState K)
    (h : 0 < (burgNumDen N s.j s.f s.b).2) :
    burgLoop N (fuel + 1) s = burgLoop N fuel (burgStep N s) := by
  rw [burgLoop, if_neg (not_le.mpr h)]

/-- Running `m + n` iterations is running `m` and then `n`: a state on which
the guard has fired stays where it is. -/
theorem burgLoop_add (N m n : Nat) (s : BurgState K) :
    burgLoop N (m + n) s = burgLoop N n (burgLoop N m s) := by
  induction m generalizing s with
  | zero => simp [burgLoop]
  | succ m ih =>
    by_cases h : (burgNumDen N s.j s.f s.b).2 ≤ 0
    · rw [burgLoop_break _ _ _ h, burgLoop_break _ _ _ h, burgLoop_break _ _ _ h]
    · have h1 : 0 < (burgNumDen N s.j s.f s.b).2 := not_le.mp h
      rw [show m + 1 + n = (m + n) + 1 by omega, burgLoop_step _ _ _ h1, ih,
        burgLoop_step _ _ _ h1]

/-- Invariant rule of the order loop. -/
theorem burgLoop_inv (N : Nat) (P : BurgState K → Prop)
    (hstep : ∀ s, P s → 0 < (burgNumDen N s.j s.f s.b).2 → P (burgStep N s)) :
    ∀ (fuel : Nat) (s : BurgState K), P s → P (burgLoop N fuel s) := by
  intro fuel
  induction fuel with
  | zero => intro s hs; exact hs
  | succ n ih =>
    intro s hs
    by_cases h : (burgNumDen N s.j s.f s.b).2 ≤ 0
    · rw [burgLoop_break _ _ _ h]; exact hs
    · rw [burgLoop_step _ _ _ (not_le.mp h)]
      exact ih _ (hstep s hs (not_le.mp h))

/-- The order loop never reads or writes `a` beyond the indices its counter
has reached: two runs that start from equal `j, f, b, p` and from coefficient
buffers equal up to index `M` stay so, as long as the counter stays within
`M + 1`. -/
theorem burgLoop_agree (N M : Nat) :
    ∀ (fuel : Nat) (s t : BurgState K), s.j = t.j → s.f = t.f → s.b = t.b → s.p = t.p →
      s.divs = t.divs → (∀ i, i ≤ M → s.a i = t.a i) → s.j + fuel ≤ M + 1 →
      (burgLoop N fuel s).j = (burgLoop N fuel t).j ∧
      (burgLoop N fuel s).f = (burgLoop N fuel t).f ∧
      (burgLoop N fuel s).b = (burgLoop N fuel t).b ∧
      (burgLoop N fuel s).p = (burgLoop N fuel t).p ∧
      (burgLoop N fuel s).divs = (burgLoop N fuel t).divs ∧
      ∀ i, i ≤ M → (burgLoop N fuel s).a i = (burgLoop N fuel t).a i := by
  intro fuel
  induction fuel with
  | zero => intro s t hj hf hb hp hd ha _; exact ⟨hj, hf, hb, hp, hd, ha⟩
  | succ n ih =>
    intro s t hj hf hb hp hd ha hM
    have hden : (burgNumDen N s.j s.f s.b).2 = (burgNumDen N t.j t.f t.b).2 := by
      rw [hj, hf, hb]
    by_cases h : (burgNumDen N s.j s.f s.b).2 ≤ 0
    · rw [burgLoop_break _ _ _ h, burgLoop_break _ _ _ (hden ▸ h)]
      exact ⟨hj, hf, hb, hp, hd, ha⟩
    · have h1 : 0 < (burgNumDen N s.j s.f s.b).2 := not_le.mp h
      rw [burgLoop_step _ _ _ h1, burgLoop_step _ _ _ (hden ▸ h1)]
      refine ih (burgStep N s) (burgStep N t) ?_ ?_ ?_ ?_ ?_ ?_ ?_
      · show s.j + 1 = t.j + 1
        rw [hj]
      · show (burgErrUpdate N s.j _ s.f s.b).1 = (burgErrUpdate N t.j _ t.f t.b).1
        rw [hj, hf, hb]
      · show (burgErrUpdate N s.j _ s.f s.b).2 = (burgErrUpdate N t.j _ t.f t.b).2
        rw [hj, hf, hb]
      · show s.p * _ = t.p * _
        rw [hj, hf, hb, hp]
      · show s.divs ++ _ = t.divs ++ _
        rw [hj, hf, hb, hd]
      · intro i hi
        show (burgCoefUpdate s.j _ s.a s.a_temp).1 i = (burgCoefUpdate t.j _ t.a t.a_temp).1 i
        rw [burgCoefUpdate_fst, burgCoefUpdate_fst, hj, hf, hb]
        have hjM : t.j ≤ M := by omega
        by_cases h2 : 1 ≤ i ∧ i ≤ t.j
        · rw [if_pos h2, if_pos h2, ha i hi, ha (t.j - i + 1) (by omega)]
        · rw [if_neg h2, if_neg h2]
          by_cases h3 : i = t.j + 1
          · rw [if_pos h3, if_pos h3]
          · rw [if_neg h3, if_neg h3, ha i hi]
      · show s.j + 1 + n ≤ M + 1
        omega

/-- The counter only grows, and by at most the number of iterations. -/
theorem burgLoop_j_bounds (N : Nat) :
    ∀ (fuel : Nat) (s : BurgState K),
      s.j ≤ (burgLoop N fuel s).j ∧ (burgLoop N fuel s).j ≤ s.j + fuel := by
  intro fuel
  induction fuel with
  | zero => intro s; exact ⟨le_refl _, le_refl _⟩
  | succ n ih =>
    intro s
    by_cases h : (burgNumDen N s.j s.f s.b).2 ≤ 0
    · rw [burgLoop_break _ _ _ h]; omega
    · rw [burgLoop_step _ _ _ (not_le.mp h)]
      have := ih (burgStep N s)
      have e : (burgStep N s).j = s.j + 1 := rfl
      omega

/-- Entries of `a` beyond the counter are as the loop found them. -/
theorem burgLoop_a_beyond (N : Nat) (fuel : Nat) (s : BurgState K) (i : Nat)
    (hi : (burgLoop N fuel s).j < i) : (burgLoop N fuel s).a i = s.a i := by
  have key := burgLoop_inv N (fun t => t.j < i → t.a i = s.a i)
    (fun t ht _ hlt => by
      have e : (burgStep N t).j = t.j + 1 := rfl
      rw [e] at hlt
      show (burgCoefUpdate t.j _ t.a t.a_temp).1 i = s.a i
      rw [burgCoefUpdate_fst, if_neg (by omega), if_neg (by omega)]
      exact ht (by omega))
    fuel s (fun _ => rfl)
  exact key hi

/-- The coefficient `a[0]` is never written by the loop. -/
theorem burgLoop_a_zero (N fuel : Nat) (s : BurgState K) :
    (burgLoop N fuel s).a 0 = s.a 0 := by
  refine burgLoop_inv N (fun t => t.a 0 = s.a 0) (fun t ht _ => ?_) fuel s rfl
  show (burgCoefUpdate t.j _ t.a t.a_temp).1 0 = s.a 0
  rw [burgCoefUpdate_fst, if_neg (by omega), if_neg (by omega)]
  exact ht

/-- The power estimate stays between zero and its value on entry. -/
theorem burgLoop_p_bounds (N fuel : Nat) (s : BurgState K) (h0 : 0 ≤ s.p) :
    0 ≤ (burgLoop N fuel s).p ∧ (burgLoop N fuel s).p ≤ s.p := by
  refine burgLoop_inv N (fun t => 0 ≤ t.p ∧ t.p ≤ s.p) (fun t ht hden => ?_) fuel s
    ⟨h0, le_refl _⟩
  have hk := burg_k_sq_le_one N t.j t.f t.b hden
  have hk2 : (-2 * (burgNumDen N t.j t.f t.b).1 / (burgNumDen N t.j t.f t.b).2) *
      (-2 * (burgNumDen N t.j t.f t.b).1 / (burgNumDen N t.j t.f t.b).2) ≤ 1 := by
    have := abs_le.mp hk
    nlinarith [this.1, this.2]
  have hk3 := mul_self_nonneg (-2 * (burgNumDen N t.j t.f t.b).1 / (burgNumDen N t.j t.f t.b).2)
  show 0 ≤ t.p * (1 - _) ∧ t.p * (1 - _) ≤ s.p
  constructor
  · exact mul_nonneg ht.1 (by linarith)
  · have : t.p * (1 - (-2 * (burgNumDen N t.j t.f t.b).1 / (burgNumDen N t.j t.f t.b).2) *
        (-2 * (burgNumDen N t.j t.f t.b).1 / (burgNumDen N t.j t.f t.b).2)) ≤ t.p * 1 :=
      mul_le_mul_of_nonneg_left (by linarith) ht.1
    linarith [ht.2]

/-- Every division of the run is a `-2*num/den` with a positive divisor and a
quotient in `[-1, 1]`, and there is one division per completed step. -/
theorem burgLoop_divs (N fuel : Nat) (s : BurgState K)
    (h0 : ∀ dk ∈ s.divs, (∃ j f b, dk = ((burgNumDen N j f b).2,
      -2 * (burgNumDen N j f b).1 / (burgNumDen N j f b).2)) ∧ 0 < dk.1 ∧ |dk.2| ≤ 1)
    (hl : s.divs.length = s.j) :
    (∀ dk ∈ (burgLoop N fuel s).divs, (∃ j f b, dk = ((burgNumDen N j f b).2,
      -2 * (burgNumDen N j f b).1 / (burgNumDen N j f b).2)) ∧ 0 < dk.1 ∧ |dk.2| ≤ 1) ∧
      (burgLoop N fuel s).divs.length = (burgLoop N fuel s).j := by
  refine burgLoop_inv N (fun t => (∀ dk ∈ t.divs, (∃ j f b, dk = ((burgNumDen N j f b).2,
      -2 * (burgNumDen N j f b).1 / (burgNumDen N j f b).2)) ∧ 0 < dk.1 ∧ |dk.2| ≤ 1) ∧
    t.divs.length = t.j) (fun t ht hden => ?_) fuel s ⟨h0, hl⟩
  constructor
  · intro dk hdk
    have hdk1 : dk ∈ t.divs ++ [((burgNumDen N t.j t.f t.b).2,
        -2 * (burgNumDen N t.j t.f t.b).1 / (burgNumDen N t.j t.f t.b).2)] := hdk
    rw [List.mem_append, List.mem_singleton] at hdk1
    rcases hdk1 with h | h
    · exact ht.1 dk h
    · rw [h]
      exact ⟨⟨t.j, t.f, t.b, rfl⟩, hden, burg_k_sq_le_one N t.j t.f t.b hden⟩
  · show (t.divs ++ [_]).length = t.j + 1
    rw [List.length_append, ht.2]
    rfl

end LoopLemmas


section BurgClaims

variable {K : Type} [LinearOrderedField K]

theorem burg_method_true (signal : Buf K) (N order : Nat) (a : Buf K) :
    burg_method true signal N order a
      = ((burgRun signal N order a).a, (burgRun signal N order a).p) := rfl

theorem burgInit_p_nonneg (signal : Buf K) (N order : Nat) (a : Buf K) :
    0 ≤ (burgInit signal N order a).p := by
  rw [burgInit_p]
  exact div_nonneg (Finset.sum_nonneg fun i _ => mul_self_nonneg _) (Nat.cast_nonneg N)

/-- Runs of two different orders from two different caller buffers agree, up
to the lower order `m`, after `m` iterations. -/
theorem burgRun_agree_upto (signal : Buf K) (N m P : Nat) (a a' : Buf K) (hmP : m ≤ P) :
    (burgRun signal N m a).j = (burgLoop N m (burgInit signal N P a')).j ∧
    (burgRun signal N m a).f = (burgLoop N m (burgInit signal N P a')).f ∧
    (burgRun signal N m a).b = (burgLoop N m (burgInit signal N P a')).b ∧
    (burgRun signal N m a).p = (burgLoop N m (burgInit signal N P a')).p ∧
    (burgRun signal N m a).divs = (burgLoop N m (burgInit signal N P a')).divs ∧
    ∀ i, i ≤ m →
      (burgRun signal N m a).a i = (burgLoop N m (burgInit signal N P a')).a i := by
  refine burgLoop_agree N m m (burgInit signal N m a) (burgInit signal N P a') rfl ?_ ?_ ?_
    rfl ?_ ?_
  · rw [burgInit_f, burgInit_f]
  · rw [burgInit_b, burgInit_b]
  · rw [burgInit_p, burgInit_p]
  · intro i hi
    rw [burgInit_a, burgInit_a]
    by_cases h : i = 0
    · rw [if_pos h, if_pos h]
    · rw [if_neg h, if_neg h, if_pos hi, if_pos (by omega)]
  · rw [burgInit_j]; omega

/-- C1: for a signal of length `N >= 1` and any order `P`, every reflection
coefficient `k = -2*num/den` computed at a completed step (one per completed
step, each with `den > 0`) satisfies `|k| <= 1`, and the returned variance lies
between `0` and the initial power estimate `mean(signal[i]^2)`. -/
theorem burg_reflection_and_variance_bounds (alloc : Bool) (signal : Buf K) (N P : Nat)
    (a : Buf K) (hN : 1 ≤ N) :
    (∀ dk ∈ (burgRun signal N P a).divs,
      (∃ j f b, dk = ((burgNumDen N j f b).2,
        -2 * (burgNumDen N j f b).1 / (burgNumDen N j f b).2)) ∧ 0 < dk.1 ∧ |dk.2| ≤ 1) ∧
    (burgRun signal N P a).divs.length = (burgRun signal N P a).j ∧
    0 ≤ (burg_method alloc signal N P a).2 ∧
    (burg_method alloc signal N P a).2
      ≤ (∑ i in Finset.range N, signal i ^ 2) / (N : K) := by
  have hd := burgLoop_divs N P (burgInit signal N P a)
    (fun dk hdk => by rw [burgInit_divs] at hdk; exact absurd hdk (List.not_mem_nil _))
    (by rw [burgInit_divs, burgInit_j]; rfl)
  have hp := burgLoop_p_bounds N P (burgInit signal N P a) (burgInit_p_nonneg signal N P a)
  have hmean : (burgInit signal N P a).p = (∑ i in Finset.range N, signal i ^ 2) / (N : K) := by
    rw [burgInit_p]
    congr 1
    exact Finset.sum_congr rfl fun i _ => (sq (signal i)).symm
  have hN' : (0 : K) < (N : K) := by exact_mod_cast hN
  refine ⟨hd.1, hd.2, ?_, ?_⟩
  · cases alloc
    · exact le_refl (0 : K)
    · exact hp.1
  · cases alloc
    · show (0 : K) ≤ _
      rw [← hmean]
      exact burgInit_p_nonneg signal N P a
    · rw [← hmean]
      exact hp.2

/-- C3: the in-place descending loop over `f` and `b` computes the
double-buffered (simultaneous) update: `f_new[i] = f_old[i] + k*b_old[i-1]` and
`b_new[i] = b_old[i-1] + k*f_old[i]` for `j+1 <= i <= N-1`, and leaves `f[i]`,
`b[i]` unchanged for `i <= j`. -/
theorem burg_err_update_simultaneous (N j : Nat) (k : K) (f b : Buf K) :
    burgErrUpdate N j k f b = errUpdateSpec N j k f b ∧
    (∀ i, j + 1 ≤ i → i ≤ N - 1 →
      (burgErrUpdate N j k f b).1 i = f i + k * b (i - 1) ∧
      (burgErrUpdate N j k f b).2 i = b (i - 1) + k * f i) ∧
    (∀ i, i ≤ j →
      (burgErrUpdate N j k f b).1 i = f i ∧ (burgErrUpdate N j k f b).2 i = b i) := by
  refine ⟨burgErrUpdate_eq N j k f b, ?_, ?_⟩
  · intro i h1 h2
    rw [burgErrUpdate_eq]
    unfold errUpdateSpec
    simp only []
    exact ⟨if_pos ⟨h1, h2⟩, if_pos ⟨h1, h2⟩⟩
  · intro i h1
    rw [burgErrUpdate_eq]
    unfold errUpdateSpec
    simp only []
    have hn : ¬(j + 1 ≤ i ∧ i ≤ N - 1) := by omega
    exact ⟨if_neg hn, if_neg hn⟩

/-- C6: with its buffers allocated, `burg_method` returns `a[0] = 1` and
determines every entry `a[0..P]` itself (none keeps what the caller's buffer
held), for every signal, length and order. -/
theorem burg_monic (signal : Buf K) (N P : Nat) (a : Buf K) :
    (burg_method true signal N P a).1 0 = 1 ∧
    ∀ (a' : Buf K) (i : Nat), i ≤ P →
      (burg_method true signal N P a).1 i = (burg_method true signal N P a').1 i := by
  rw [burg_method_true]
  constructor
  · show (burgLoop N P (burgInit signal N P a)).a 0 = 1
    rw [burgLoop_a_zero, burgInit_a, if_pos rfl]
  · intro a' i hi
    rw [burg_method_true]
    exact (burgRun_agree_upto signal N P P a a' (le_refl P)).2.2.2.2.2 i hi

/-- The sums of step 0, over the signal itself. -/
theorem burgNumDen_init (signal : Buf K) (N order : Nat) (a : Buf K) :
    burgNumDen N 0 (burgInit signal N order a).f (burgInit signal N order a).b
      = (∑ i in Finset.Ico 1 N, signal i * signal (i - 1),
         ∑ i in Finset.Ico 1 N, (signal i ^ 2 + signal (i - 1) ^ 2)) := by
  rw [burgNumDen_eq, burgInit_f, burgInit_b]
  refine Prod.ext ?_ ?_
  · simp only []
    rw [Finset.sum_Ico_eq_sum_range]
    refine Finset.sum_congr rfl fun i hi => ?_
    have hi' := Finset.mem_range.mp hi
    rw [if_pos (by omega), if_pos (by omega)]
    congr 2
    omega
  · simp only []
    rw [Finset.sum_Ico_eq_sum_range]
    refine Finset.sum_congr rfl fun i hi => ?_
    have hi' := Finset.mem_range.mp hi
    rw [if_pos (by omega), if_pos (by omega), sq, sq]
    congr 3 <;> omega

/-- C2: order recursion. When the order-`P` run completes its `P` steps and
step `P` has `den > 0`, the order-`(P+1)` call returns `a'[0] = 1`,
`a'[i] = a[i] + k*a[P-i+1]` for `1 <= i <= P`, `a'[P+1] = k` and variance
`v*(1 - k^2)`, where `(a, v)` is what the order-`P` call returns and
`k = -2*num/den` is the reflection coefficient of step `P`. For `P + 1 = 1`:
`a'[1] = -2*sum x[i]*x[i-1] / sum (x[i]^2 + x[i-1]^2)` (sums over
`1 <= i <= N-1`) and `v' = mean(x^2)*(1 - a'[1]^2)`. -/
theorem burg_order_recursion (signal : Buf K) (N P : Nat) (a a' : Buf K)
    (hsteps : (burgRun signal N P a).j = P)
    (hden : 0 < (burgNumDen N P (burgRun signal N P a).f (burgRun signal N P a).b).2) :
    (burg_method true signal N (P + 1) a').1 0 = 1 ∧
    (∀ i, 1 ≤ i → i ≤ P →
      (burg_method true signal N (P + 1) a').1 i
        = (burg_method true signal N P a).1 i
          + (-2 * (burgNumDen N P (burgRun signal N P a).f (burgRun signal N P a).b).1
              / (burgNumDen N P (burgRun signal N P a).f (burgRun signal N P a).b).2)
            * (burg_method true signal N P a).1 (P - i + 1)) ∧
    (burg_method true signal N (P + 1) a').1 (P + 1)
      = -2 * (burgNumDen N P (burgRun signal N P a).f (burgRun signal N P a).b).1
          / (burgNumDen N P (burgRun signal N P a).f (burgRun signal N P a).b).2 ∧
    (burg_method true signal N (P + 1) a').2
      = (burg_method true signal N P a).2
        * (1 - (-2 * (burgNumDen N P (burgRun signal N P a).f (burgRun signal N P a).b).1
              / (burgNumDen N P (burgRun signal N P a).f (burgRun signal N P a).b).2) ^ 2) ∧
    (P = 0 →
      (burg_method true signal N (P + 1) a').1 1
        = -2 * (∑ i in Finset.Ico 1 N, signal i * signal (i - 1))
            / (∑ i in Finset.Ico 1 N, (signal i ^ 2 + signal (i - 1) ^ 2)) ∧
      (burg_method true signal N (P + 1) a').2
        = (∑ i in Finset.range N, signal i ^ 2) / (N : K)
          * (1 - ((burg_method true signal N (P + 1) a').1 1) ^ 2)) := by
  obtain ⟨ej, ef, eb, ep, _, ea⟩ := burgRun_agree_upto signal N P (P + 1) a a' (Nat.le_succ P)
  have hrun : burgRun signal N (P + 1) a'
      = burgStep N (burgLoop N P (burgInit signal N (P + 1) a')) := by
    unfold burgRun
    rw [burgLoop_add N P 1, burgLoop_step N 0 _ (by rw [← ej, ← ef, ← eb, hsteps]; exact hden)]
    rfl
  have hk : -2 * (burgNumDen N (burgLoop N P (burgInit signal N (P + 1) a')).j
        (burgLoop N P (burgInit signal N (P + 1) a')).f
        (burgLoop N P (burgInit signal N (P + 1) a')).b).1
      / (burgNumDen N (burgLoop N P (burgInit signal N (P + 1) a')).j
        (burgLoop N P (burgInit signal N (P + 1) a')).f
        (burgLoop N P (burgInit signal N (P + 1) a')).b).2
      = -2 * (burgNumDen N P (burgRun signal N P a).f (burgRun signal N P a).b).1
          / (burgNumDen N P (burgRun signal N P a).f (burgRun signal N P a).b).2 := by
    rw [← ej, ← ef, ← eb, hsteps]
  have hA : ∀ i, (burg_method true signal N (P + 1) a').1 i
      = if 1 ≤ i ∧ i ≤ P then
          (burgLoop N P (burgInit signal N (P + 1) a')).a i
            + (-2 * (burgNumDen N P (burgRun signal N P a).f (burgRun signal N P a).b).1
              / (burgNumDen N P (burgRun signal N P a).f (burgRun signal N P a).b).2)
              * (burgLoop N P (burgInit signal N (P + 1) a')).a (P - i + 1)
        else if i = P + 1 then
          -2 * (burgNumDen N P (burgRun signal N P a).f (burgRun signal N P a).b).1
              / (burgNumDen N P (burgRun signal N P a).f (burgRun signal N P a).b).2
        else (burgLoop N P (burgInit signal N (P + 1) a')).a i := by
    intro i
    rw [burg_method_true, hrun]
    show (burgCoefUpdate _ _ _ _).1 i = _
    rw [burgCoefUpdate_fst, hk, ← ej, hsteps]
  have hV : (burg_method true signal N (P + 1) a').2
      = (burg_method true signal N P a).2
        * (1 - (-2 * (burgNumDen N P (burgRun signal N P a).f (burgRun signal N P a).b).1
              / (burgNumDen N P (burgRun signal N P a).f (burgRun signal N P a).b).2) ^ 2) := by
    rw [burg_method_true, burg_method_true, hrun]
    show (burgLoop N P (burgInit signal N (P + 1) a')).p * (1 - _ * _) = _
    rw [hk, ← ep, sq]
  have h1 : (burg_method true signal N (P + 1) a').1 (P + 1)
      = -2 * (burgNumDen N P (burgRun signal N P a).f (burgRun signal N P a).b).1
          / (burgNumDen N P (burgRun signal N P a).f (burgRun signal N P a).b).2 := by
    rw [hA, if_neg (by omega), if_pos rfl]
  refine ⟨?_, ?_, h1, hV, ?_⟩
  · rw [hA, if_neg (by omega), if_neg (by omega), burgLoop_a_zero, burgInit_a, if_pos rfl]
  · intro i hi1 hi2
    rw [hA, if_pos ⟨hi1, hi2⟩, burg_method_true, ← ea i hi2, ← ea (P - i + 1) (by omega)]
  · intro hP
    subst hP
    have hnd : burgNumDen N 0 (burgRun signal N 0 a).f (burgRun signal N 0 a).b
        = (∑ i in Finset.Ico 1 N, signal i * signal (i - 1),
           ∑ i in Finset.Ico 1 N, (signal i ^ 2 + signal (i - 1) ^ 2)) :=
      burgNumDen_init signal N 0 a
    have e1 : (burg_method true signal N (0 + 1) a').1 1
        = -2 * (∑ i in Finset.Ico 1 N, signal i * signal (i - 1))
            / (∑ i in Finset.Ico 1 N, (signal i ^ 2 + signal (i - 1) ^ 2)) := by
      rw [h1, hnd]
    refine ⟨e1, ?_⟩
    rw [e1, hV, hnd, burg_method_true]
    show (burgInit signal N 0 a).p * _ = _
    rw [burgInit_p]
    congr 2
    exact Finset.sum_congr rfl fun i _ => (sq (signal i)).symm

/-- C4: early termination. When the recursion reaches step `j < P` (the
order-`j` run completes its `j` steps) and finds `den <= 0` there, the
order-`P` call returns the variance and the coefficients `a[0..j]` of the
order-`j` call, and `a[i] = 0` for `j+1 <= i <= P`. -/
theorem burg_early_termination (signal : Buf K) (N j P : Nat) (a a' : Buf K) (hjP : j < P)
    (hsteps : (burgRun signal N j a).j = j)
    (hden : (burgNumDen N j (burgRun signal N j a).f (burgRun signal N j a).b).2 ≤ 0) :
    (burg_method true signal N P a').2 = (burg_method true signal N j a).2 ∧
    (∀ i, i ≤ j →
      (burg_method true signal N P a').1 i = (burg_method true signal N j a).1 i) ∧
    (∀ i, j + 1 ≤ i → i ≤ P → (burg_method true signal N P a').1 i = 0) ∧
    (burgRun signal N P a').j = j := by
  obtain ⟨ej, ef, eb, ep, _, ea⟩ := burgRun_agree_upto signal N j P a a' (le_of_lt hjP)
  have hrun : burgRun signal N P a' = burgLoop N j (burgInit signal N P a') := by
    unfold burgRun
    have hadd := burgLoop_add N j (P - j) (burgInit signal N P a')
    rw [show j + (P - j) = P by omega] at hadd
    rw [hadd, burgLoop_break N (P - j) _ (by rw [← ej, ← ef, ← eb, hsteps]; exact hden)]
  rw [burg_method_true, burg_method_true, hrun]
  refine ⟨ep.symm, fun i hi => (ea i hi).symm, ?_, ?_⟩
  · intro i h1 h2
    show (burgLoop N j (burgInit signal N P a')).a i = 0
    rw [burgLoop_a_beyond N j _ i (by rw [← ej, hsteps]; omega), burgInit_a,
      if_neg (by omega), if_pos h2]
  · rw [← ej, hsteps]

/-- The sums of step 0 for a constant signal. -/
theorem burgNumDen_const (signal : Buf K) (c : K) (N order : Nat) (a : Buf K)
    (hc : ∀ i, i < N → signal i = c) :
    burgNumDen N 0 (burgInit signal N order a).f (burgInit signal N order a).b
      = (((N - 1 : Nat) : K) * (c * c), ((N - 1 : Nat) : K) * (c * c + c * c)) := by
  rw [burgNumDen_init]
  refine Prod.ext ?_ ?_
  · simp only []
    rw [Finset.sum_congr rfl (fun i hi => by
      have h := Finset.mem_Ico.mp hi
      rw [hc i h.2, hc (i - 1) (by omega)] : ∀ i ∈ Finset.Ico 1 N,
        signal i * signal (i - 1) = c * c)]
    rw [Finset.sum_const, Nat.card_Ico, nsmul_eq_mul]
  · simp only []
    rw [Finset.sum_congr rfl (fun i hi => by
      have h := Finset.mem_Ico.mp hi
      rw [hc i h.2, hc (i - 1) (by omega), sq] : ∀ i ∈ Finset.Ico 1 N,
        signal i ^ 2 + signal (i - 1) ^ 2 = c * c + c * c)]
    rw [Finset.sum_const, Nat.card_Ico, nsmul_eq_mul]

/-- C5, amended: over exact arithmetic (any linearly ordered field, the reals
among them), for an all-zero or constant signal of length `N` and order
`1 <= P < N`, the returned variance is exactly zero and every division
`k = -2*num/den` performed has `den > 0`; the all-zero signal gives
`a = [1, 0, ..., 0]` with no division at all, and a constant `c != 0` gives
`a = [1, -1, 0, ..., 0]`. -/
theorem burg_constant_signal (signal : Buf K) (c : K) (N P : Nat) (a : Buf K)
    (hP : 1 ≤ P) (hPN : P < N) (hc : ∀ i, i < N → signal i = c) :
    (burg_method true signal N P a).2 = 0 ∧
    (∀ dk ∈ (burgRun signal N P a).divs, 0 < dk.1) ∧
    (c = 0 → (burgRun signal N P a).divs = [] ∧
      ∀ i, i ≤ P → (burg_method true signal N P a).1 i = if i = 0 then 1 else 0) ∧
    (c ≠ 0 → ∀ i, i ≤ P →
      (burg_method true signal N P a).1 i = if i = 0 then 1 else if i = 1 then -1 else 0) := by
  have hnd := burgNumDen_const signal c N P a hc
  have hN1 : (0 : K) < ((N - 1 : Nat) : K) := by
    have : 0 < N - 1 := by omega
    exact_mod_cast this
  by_cases hc0 : c = 0
  · -- the guard fires at step 0
    have hbrk : burgRun signal N P a = burgInit signal N P a := by
      unfold burgRun
      refine burgLoop_break N P _ ?_
      rw [burgInit_j, hnd, hc0]
      simp
    have hp : (burgInit signal N P a).p = 0 := by
      rw [burgInit_p, Finset.sum_eq_zero (fun i hi => by
        rw [hc i (Finset.mem_range.mp hi), hc0, mul_zero]), zero_div]
    rw [burg_method_true, hbrk]
    refine ⟨hp, ?_, ?_, fun h => absurd hc0 h⟩
    · intro dk hdk
      rw [burgInit_divs] at hdk
      exact absurd hdk (List.not_mem_nil _)
    · intro _
      refine ⟨burgInit_divs signal N P a, fun i hi => ?_⟩
      show (burgInit signal N P a).a i = _
      rw [burgInit_a]
      by_cases h : i = 0
      · rw [if_pos h, if_pos h]
      · rw [if_neg h, if_neg h, if_pos hi]
  · -- step 0 completes with k = -1, then the guard fires at step 1
    have hcc : 0 < c * c := mul_self_pos.mpr hc0
    have hden0 : 0 < (burgNumDen N (burgInit signal N P a).j (burgInit signal N P a).f
        (burgInit signal N P a).b).2 := by
      rw [burgInit_j, hnd]
      exact mul_pos hN1 (by linarith)
    have hk : -2 * (burgNumDen N (burgInit signal N P a).j (burgInit signal N P a).f
          (burgInit signal N P a).b).1
        / (burgNumDen N (burgInit signal N P a).j (burgInit signal N P a).f
          (burgInit signal N P a).b).2 = -1 := by
      rw [burgInit_j, hnd]
      simp only []
      have h1 : ((N - 1 : Nat) : K) ≠ 0 := ne_of_gt hN1
      have h2 : c * c + c * c ≠ 0 := by linarith
      field_simp
      ring
    have hf1 : ∀ i, 2 ≤ i → (burgStep N (burgInit signal N P a)).f i = 0 := by
      intro i hi
      show (burgErrUpdate N (burgInit signal N P a).j _ (burgInit signal N P a).f
        (burgInit signal N P a).b).1 i = 0
      rw [hk, burgErrUpdate_eq, burgInit_j, burgInit_f, burgInit_b]
      unfold errUpdateSpec
      simp only []
      by_cases h : i ≤ N - 1
      · rw [if_pos ⟨by omega, h⟩, if_pos (by omega), if_pos (by omega), hc i (by omega),
          hc (i - 1) (by omega)]
        ring
      · rw [if_neg (by omega), if_neg (by omega)]
    have hb1 : ∀ i, 1 ≤ i → (burgStep N (burgInit signal N P a)).b i = 0 := by
      intro i hi
      show (burgErrUpdate N (burgInit signal N P a).j _ (burgInit signal N P a).f
        (burgInit signal N P a).b).2 i = 0
      rw [hk, burgErrUpdate_eq, burgInit_j, burgInit_f, burgInit_b]
      unfold errUpdateSpec
      simp only []
      by_cases h : i ≤ N - 1
      · rw [if_pos ⟨by omega, h⟩, if_pos (by omega), if_pos (by omega), hc i (by omega),
          hc (i - 1) (by omega)]
        ring
      · rw [if_neg (by omega), if_neg (by omega)]
    have hden1 : (burgNumDen N (burgStep N (burgInit signal N P a)).j
        (burgStep N (burgInit signal N P a)).f (burgStep N (burgInit signal N P a)).b).2 ≤ 0 := by
      rw [burgNumDen_eq]
      simp only []
      refine le_of_eq (Finset.sum_eq_zero fun i _ => ?_)
      have e : (burgStep N (burgInit signal N P a)).j = 1 := rfl
      rw [e, hf1 (1 + 1 + i) (by omega), hb1 (1 + i) (by omega)]
      ring
    have hrun : burgRun signal N P a = burgStep N (burgInit signal N P a) := by
      unfold burgRun
      obtain ⟨P', rfl⟩ : ∃ P', P = P' + 1 := ⟨P - 1, by omega⟩
      rw [burgLoop_step N P' _ hden0, burgLoop_break N P' _ hden1]
    rw [burg_method_true, hrun]
    refine ⟨?_, ?_, fun h => absurd h hc0, fun _ i hi => ?_⟩
    · show (burgInit signal N P a).p * (1 - _ * _) = 0
      rw [hk]
      ring
    · intro dk hdk
      have hdk1 : dk ∈ (burgInit signal N P a).divs ++
          [((burgNumDen N (burgInit signal N P a).j (burgInit signal N P a).f
              (burgInit signal N P a).b).2,
            -2 * (burgNumDen N (burgInit signal N P a).j (burgInit signal N P a).f
              (burgInit signal N P a).b).1
            / (burgNumDen N (burgInit signal N P a).j (burgInit signal N P a).f
              (burgInit signal N P a).b).2)] := hdk
      rw [burgInit_divs, List.nil_append, List.mem_singleton] at hdk1
      rw [hdk1]
      exact hden0
    · show (burgCoefUpdate (burgInit signal N P a).j _ (burgInit signal N P a).a
        (burgInit signal N P a).a_temp).1 i = _
      rw [hk, burgCoefUpdate_fst, burgInit_j, burgInit_a]
      by_cases h0 : i = 0
      · rw [if_neg (by omega), if_neg (by omega), if_pos h0, if_pos h0]
      · by_cases h1 : i = 1
        · rw [if_neg (by omega), if_pos (by omega), if_neg h0, if_pos h1]
        · rw [if_neg (by omega), if_neg (by omega), if_neg h0, if_pos hi, if_neg h0, if_neg h1]

end BurgClaims

theorem burg_reflection_and_variance_bounds_witness :
    1 ≤ 3 ∧
    ((∀ dk ∈ (burgRun sigRamp 3 1 bufSeven).divs,
      (∃ j f b, dk = ((burgNumDen 3 j f b).2,
        -2 * (burgNumDen 3 j f b).1 / (burgNumDen 3 j f b).2)) ∧ 0 < dk.1 ∧ |dk.2| ≤ 1) ∧
     (burgRun sigRamp 3 1 bufSeven).divs.length = (burgRun sigRamp 3 1 bufSeven).j ∧
     0 ≤ (burg_method true sigRamp 3 1 bufSeven).2 ∧
     (burg_method true sigRamp 3 1 bufSeven).2
       ≤ (∑ i in Finset.range 3, sigRamp i ^ 2) / ((3 : Nat) : ℚ)) :=
  ⟨by decide, burg_reflection_and_variance_bounds true sigRamp 3 1 bufSeven (by decide)⟩

theorem burg_order_recursion_witness :
    (burgRun sigRamp 3 0 bufSeven).j = 0 ∧
    0 < (burgNumDen 3 0 (burgRun sigRamp 3 0 bufSeven).f (burgRun sigRamp 3 0 bufSeven).b).2 ∧
    (burg_method true sigRamp 3 (0 + 1) bufMinusTwo).1 0 = 1 ∧
    (burg_method true sigRamp 3 (0 + 1) bufMinusTwo).1 1 = -8 / 9 ∧
    (burg_method true sigRamp 3 (0 + 1) bufMinusTwo).2 = 238 / 243 := by
  have hden : 0 < (burgNumDen 3 0 (burgRun sigRamp 3 0 bufSeven).f
      (burgRun sigRamp 3 0 bufSeven).b).2 := by
    norm_num [burgRun, burgLoop, burgInit, burgNumDen, forUp, sigRamp, Function.update]
  have h := burg_order_recursion sigRamp 3 0 bufSeven bufMinusTwo rfl hden
  have h1 := (h.2.2.2.2 rfl).1
  have h2 := (h.2.2.2.2 rfl).2
  refine ⟨rfl, hden, h.1, ?_, ?_⟩
  · rw [h1]
    norm_num [Finset.sum_Ico_eq_sum_range, Finset.sum_range_succ, sigRamp]
  · rw [h2, h1]
    norm_num [Finset.sum_Ico_eq_sum_range, Finset.sum_range_succ, sigRamp]

theorem burg_early_termination_witness :
    1 < 3 ∧ (burgRun sigThree 4 1 bufSeven).j = 1 ∧
    (burgNumDen 4 1 (burgRun sigThree 4 1 bufSeven).f (burgRun sigThree 4 1 bufSeven).b).2 ≤ 0 ∧
    ((burg_method true sigThree 4 3 bufMinusTwo).2 = (burg_method true sigThree 4 1 bufSeven).2 ∧
     (∀ i, i ≤ 1 →
       (burg_method true sigThree 4 3 bufMinusTwo).1 i
         = (burg_method true sigThree 4 1 bufSeven).1 i) ∧
     (∀ i, 1 + 1 ≤ i → i ≤ 3 → (burg_method true sigThree 4 3 bufMinusTwo).1 i = 0) ∧
     (burgRun sigThree 4 3 bufMinusTwo).j = 1) := by
  have hsteps : (burgRun sigThree 4 1 bufSeven).j = 1 := by
    norm_num [burgRun, burgLoop, burgInit, burgNumDen, forUp, Function.update, burgStep,
      sigThree]
  have hden : (burgNumDen 4 1 (burgRun sigThree 4 1 bufSeven).f
      (burgRun sigThree 4 1 bufSeven).b).2 ≤ 0 := by
    norm_num [burgRun, burgLoop, burgInit, burgNumDen, forUp, forDown, Function.update,
      burgStep, burgErrUpdate, sigThree]
  exact ⟨by decide, hsteps, hden,
    burg_early_termination sigThree 4 1 3 bufSeven bufMinusTwo (by decide) hsteps hden⟩

theorem burg_constant_signal_witness :
    1 ≤ 3 ∧ 3 < 4 ∧ (∀ i, i < 4 → sigThree i = 3) ∧
    ((burg_method true sigThree 4 3 bufSeven).2 = 0 ∧
     (∀ dk ∈ (burgRun sigThree 4 3 bufSeven).divs, 0 < dk.1) ∧
     ((3 : ℚ) = 0 → (burgRun sigThree 4 3 bufSeven).divs = [] ∧
       ∀ i, i ≤ 3 → (burg_method true sigThree 4 3 bufSeven).1 i = if i = 0 then 1 else 0) ∧
     ((3 : ℚ) ≠ 0 → ∀ i, i ≤ 3 →
       (burg_method true sigThree 4 3 bufSeven).1 i
         = if i = 0 then 1 else if i = 1 then -1 else 0)) :=
  ⟨by decide, by decide, fun _ _ => rfl,
    burg_constant_signal sigThree 3 4 3 bufSeven (by decide) (by decide) (fun _ _ => rfl)⟩


/-! ## Spectral synthesis -/

/-- The twiddle loop after `n` iterations: `wk = w^(n+1)` and
`den = 1 + Σ_{k=1..n} a[k]·w^k`. -/
theorem psdDenLoop_eq (a : Buf ℝ) (n : Nat) (w : ℂ) :
    psdDenLoop a n w
      = (1 + ∑ k in Finset.range n, (a (1 + k) : ℂ) * w ^ (1 + k), w ^ (n + 1)) := by
  unfold psdDenLoop
  induction n with
  | zero => simp [forUp]
  | succ n ih =>
    rw [forUp_succ_last, ih, Finset.sum_range_succ]
    refine Prod.ext ?_ ?_
    · simp only []
      rw [add_comm 1 n, add_assoc]
    · simp only []
      rw [← pow_succ]

theorem exp_twiddle_pow (omega : ℝ) (k : Nat) :
    Complex.exp (-Complex.I * (omega : ℂ)) ^ k
      = Complex.exp (-Complex.I * (k : ℂ) * (omega : ℂ)) := by
  rw [← Complex.exp_nat_mul]
  congr 1
  ring

/-- The loop's `den` is the polynomial `D(ω)` of the specification. -/
theorem psdDenLoop_fst (a : Buf ℝ) (order : Nat) (omega : ℝ) :
    (psdDenLoop a order (Complex.exp (-Complex.I * (omega : ℂ)))).1
      = arDenominator a order omega := by
  rw [psdDenLoop_eq]
  unfold arDenominator
  simp only []
  rw [← Nat.Ico_succ_right, Finset.sum_Ico_eq_sum_range]
  congr 1
  refine Finset.sum_congr (by rw [Nat.succ_sub_one]) fun k _ => ?_
  rw [exp_twiddle_pow]

theorem psd_omega (n_freq i : Nat) :
    2 * Real.pi * (i : ℝ) / (2 * ((n_freq : ℝ) - 1))
      = Real.pi * (i : ℝ) / ((n_freq : ℝ) - 1) := by
  rw [mul_assoc, mul_div_mul_left _ _ (two_ne_zero)]

theorem psdBin_eq (a : Buf ℝ) (order : Nat) (variance : ℝ) (n_freq i : Nat) :
    psdBin a order variance n_freq i
      = variance
          / Complex.abs (arDenominator a order (Real.pi * (i : ℝ) / ((n_freq : ℝ) - 1))) ^ 2 := by
  unfold psdBin
  simp only []
  rw [psdDenLoop_fst, psd_omega, sq]

theorem calculate_psd_apply (a : Buf ℝ) (order : Nat) (variance : ℝ) (n_freq : Nat)
    (psd : Buf ℝ) (i : Nat) :
    calculate_psd a order variance n_freq psd i
      = if i < n_freq then psdBin a order variance n_freq i else psd i := by
  unfold calculate_psd
  rw [forUp_store]
  by_cases h : i < n_freq
  · rw [if_pos (by omega), if_pos h]
  · rw [if_neg (by omega), if_neg h]

/-- The squared magnitude of `D(ω)` for `a = [1, -0.5]`. -/
theorem coefHalf_abs_sq (omega : ℝ) :
    Complex.abs (arDenominator coefHalf 1 omega) ^ 2 = 1.25 - Real.cos omega := by
  unfold arDenominator
  rw [Complex.sq_abs, Complex.normSq_apply]
  have e : (-Complex.I * ((1 : Nat) : ℂ) * (omega : ℂ)) = ((-omega : ℝ) : ℂ) * Complex.I := by
    push_cast; ring
  simp only [Finset.Icc_self, Finset.sum_singleton, e, Complex.exp_ofReal_mul_I_re,
    Complex.exp_ofReal_mul_I_im, Complex.add_re, Complex.add_im, Complex.mul_re, Complex.mul_im,
    Complex.one_re, Complex.one_im, Complex.ofReal_re, Complex.ofReal_im, coefHalf,
    Real.cos_neg, Real.sin_neg]
  nlinarith [Real.sin_sq_add_cos_sq omega]

theorem coefHalf_denominator_ne_zero (omega : ℝ) : arDenominator coefHalf 1 omega ≠ 0 := by
  intro h
  have h1 := coefHalf_abs_sq omega
  rw [h, map_zero] at h1
  have := Real.cos_le_one omega
  norm_num at h1
  linarith

/-- C7: for `n_freq >= 2` and every bin `i < n_freq`, `calculate_psd` stores
`psd[i] = variance / |1 + Σ_{k=1..order} a[k]·e^{-jkω}|^2` with
`ω = π·i/(n_freq-1)`; the twiddle factor `wk` entering iteration `k` is
`e^{-jkω}`. For `a = [1, -0.5]`, order 1, variance 1, `n_freq = 5`:
`psd[i] = 1/(1.25 - cos(π·i/4))`, so `psd[0] = 4`, `psd[2] = 0.8`,
`psd[4] = 4/9`. -/
theorem calculate_psd_formula (a : Buf ℝ) (order : Nat) (variance : ℝ) (n_freq : Nat)
    (psd : Buf ℝ) (i : Nat) (_hn : 2 ≤ n_freq) (hi : i < n_freq) :
    calculate_psd a order variance n_freq psd i
      = variance
          / Complex.abs (arDenominator a order (Real.pi * (i : ℝ) / ((n_freq : ℝ) - 1))) ^ 2 ∧
    (∀ k, 1 ≤ k →
      (psdDenLoop a (k - 1)
          (Complex.exp (-Complex.I * ((Real.pi * (i : ℝ) / ((n_freq : ℝ) - 1) : ℝ) : ℂ)))).2
        = Complex.exp (-Complex.I * (k : ℂ)
            * ((Real.pi * (i : ℝ) / ((n_freq : ℝ) - 1) : ℝ) : ℂ))) ∧
    (∀ m, m < 5 →
      calculate_psd coefHalf 1 1 5 psd m = 1 / (1.25 - Real.cos (Real.pi * (m : ℝ) / 4))) ∧
    calculate_psd coefHalf 1 1 5 psd 0 = 4 ∧
    calculate_psd coefHalf 1 1 5 psd 2 = 0.8 ∧
    calculate_psd coefHalf 1 1 5 psd 4 = 4 / 9 := by
  have hgen : ∀ m, m < 5 →
      calculate_psd coefHalf 1 1 5 psd m = 1 / (1.25 - Real.cos (Real.pi * (m : ℝ) / 4)) := by
    intro m hm
    rw [calculate_psd_apply, if_pos hm, psdBin_eq, coefHalf_abs_sq]
    norm_num
  refine ⟨?_, ?_, hgen, ?_, ?_, ?_⟩
  · rw [calculate_psd_apply, if_pos hi, psdBin_eq]
  · intro k hk
    rw [psdDenLoop_eq]
    simp only []
    rw [Nat.sub_add_cancel hk, exp_twiddle_pow]
  · rw [hgen 0 (by decide)]
    norm_num
  · rw [hgen 2 (by decide)]
    have e : Real.pi * ((2 : Nat) : ℝ) / 4 = Real.pi / 2 := by push_cast; ring
    rw [e, Real.cos_pi_div_two]
    norm_num
  · rw [hgen 4 (by decide)]
    have e : Real.pi * ((4 : Nat) : ℝ) / 4 = Real.pi := by push_cast; ring
    rw [e, Real.cos_pi]
    norm_num

theorem calculate_psd_formula_witness :
    2 ≤ 5 ∧ 2 < 5 ∧
    calculate_psd coefHalf 1 1 5 (fun _ => 0) 2
      = 1 / Complex.abs (arDenominator coefHalf 1 (Real.pi * ((2 : Nat) : ℝ) / (((5 : Nat) : ℝ) - 1))) ^ 2 :=
  ⟨by decide, by decide,
    (calculate_psd_formula coefHalf 1 1 5 (fun _ => 0) 2 (by decide) (by decide)).1⟩

/-- C8, amended: over exact real arithmetic, for a model with `variance >= 0`,
`n_freq >= 2` and `D(ω_i) != 0` at every grid point, every value written by
`calculate_psd` is non-negative, and positive when `variance > 0`. -/
theorem calculate_psd_nonneg (a : Buf ℝ) (order : Nat) (variance : ℝ) (n_freq : Nat)
    (psd : Buf ℝ) (_hn : 2 ≤ n_freq) (hv : 0 ≤ variance)
    (hD : ∀ i, i < n_freq →
      arDenominator a order (Real.pi * (i : ℝ) / ((n_freq : ℝ) - 1)) ≠ 0) :
    ∀ i, i < n_freq →
      0 ≤ calculate_psd a order variance n_freq psd i ∧
      (0 < variance → 0 < calculate_psd a order variance n_freq psd i) := by
  intro i hi
  rw [calculate_psd_apply, if_pos hi, psdBin_eq]
  have hpos : 0 < Complex.abs (arDenominator a order
      (Real.pi * (i : ℝ) / ((n_freq : ℝ) - 1))) ^ 2 :=
    pow_pos (Complex.abs.pos (hD i hi)) 2
  exact ⟨div_nonneg hv (le_of_lt hpos), fun h => div_pos h hpos⟩

theorem calculate_psd_nonneg_witness :
    2 ≤ 5 ∧ (0 : ℝ) ≤ 1 ∧
    (∀ i, i < 5 →
      arDenominator coefHalf 1 (Real.pi * (i : ℝ) / (((5 : Nat) : ℝ) - 1)) ≠ 0) ∧
    (∀ i, i < 5 →
      0 ≤ calculate_psd coefHalf 1 1 5 (fun _ => -1) i ∧
      ((0 : ℝ) < 1 → 0 < calculate_psd coefHalf 1 1 5 (fun _ => -1) i)) :=
  ⟨by decide, zero_le_one, fun _ _ => coefHalf_denominator_ne_zero _,
    calculate_psd_nonneg coefHalf 1 1 5 (fun _ => -1) (by decide) zero_le_one
      (fun _ _ => coefHalf_denominator_ne_zero _)⟩

/-! ## Peak extraction -/

/-- Membership in the output of a loop that appends `g i` at each `i`. -/
theorem forUp_append_mem {α : Type} (g : Nat → List α) (lo n : Nat) (acc : List α) (r : α) :
    r ∈ forUp (fun i (out : List α) => out ++ g i) lo n acc
      ↔ r ∈ acc ∨ ∃ i, lo ≤ i ∧ i < lo + n ∧ r ∈ g i := by
  induction n with
  | zero =>
    rw [forUp]
    constructor
    · intro h; exact Or.inl h
    · rintro (h | ⟨i, h1, h2, _⟩)
      · exact h
      · omega
  | succ n ih =>
    rw [forUp_succ_last, List.mem_append, ih]
    constructor
    · rintro ((h | ⟨i, h1, h2, h3⟩) | h)
      · exact Or.inl h
      · exact Or.inr ⟨i, h1, by omega, h3⟩
      · exact Or.inr ⟨lo + n, by omega, by omega, h⟩
    · rintro (h | ⟨i, h1, h2, h3⟩)
      · exact Or.inl (Or.inl h)
      · by_cases hi : i = lo + n
        · subst hi; exact Or.inr h3
        · exact Or.inl (Or.inr ⟨i, h1, by omega, h3⟩)

/-- A loop appending `g i` at each `i` yields a list ordered by `R` when each
`g i` is, and everything of an earlier `g i` is `R`-before everything of a later
one. -/
theorem forUp_append_pairwise {α : Type} (R : α → α → Prop) (g : Nat → List α) (lo n : Nat)
    (hg : ∀ i, (g i).Pairwise R)
    (hR : ∀ i k, lo ≤ i → i < k → k < lo + n → ∀ r ∈ g i, ∀ t ∈ g k, R r t) :
    (forUp (fun i (out : List α) => out ++ g i) lo n []).Pairwise R := by
  induction n with
  | zero => rw [forUp]; exact List.Pairwise.nil
  | succ n ih =>
    rw [forUp_succ_last, List.pairwise_append]
    refine ⟨ih fun i k h1 h2 h3 => hR i k h1 h2 (by omega), hg _, fun r hr t ht => ?_⟩
    rw [forUp_append_mem] at hr
    rcases hr with hr | ⟨i, h1, h2, h3⟩
    · exact absurd hr (List.not_mem_nil _)
    · exact hR i (lo + n) h1 h2 (by omega) r h3 t ht

theorem to_db_of_pos {x : ℝ} (hx : 0 < x) : to_db x = 10 * Real.logb 10 x := by
  unfold to_db
  rw [if_neg (not_le.mpr hx)]

/-- On positive powers `to_db` is strictly increasing. -/
theorem to_db_lt_of_pos {x y : ℝ} (hx : 0 < x) (hxy : x < y) : to_db x < to_db y := by
  rw [to_db_of_pos hx, to_db_of_pos (lt_trans hx hxy)]
  have := Real.logb_lt_logb (by norm_num : (1 : ℝ) < 10) hx hxy
  linarith

theorem to_db_inv_pow (n : Nat) : to_db (((10 : ℝ) ^ n)⁻¹) = -(10 * (n : ℝ)) := by
  rw [to_db_of_pos (inv_pos.mpr (pow_pos (by norm_num) n)), Real.logb_inv, Real.logb_pow,
    Real.logb_self_eq_one (by norm_num)]
  ring

theorem to_db_zero : to_db 0 = -200 := by
  unfold to_db
  rw [if_pos (le_refl 0)]

theorem mem_peakAt (psd : Buf ℝ) (n_freq : Nat) (th max_db fpb : ℝ) (i : Nat) (r : PeakInfo) :
    r ∈ peakAt psd n_freq th max_db fpb i ↔
      (psd i > psd (i - 1) ∧ psd i > psd (i + 1) ∧ to_db (psd i) > max_db + th) ∧
      r = { index := i, frequency := ((i : ℝ) + peakOffset psd i) * fpb,
            power_db := to_db (psd i),
            width_hz := ((scanRight psd (to_db (psd i) - 3) (n_freq - 1 - i) i : ℝ)
              - (scanLeft psd (to_db (psd i) - 3) i : ℝ)) * fpb } := by
  unfold peakAt
  simp only []
  by_cases h : psd i > psd (i - 1) ∧ psd i > psd (i + 1) ∧ to_db (psd i) > max_db + th
  · rw [if_pos h, List.mem_singleton]
    exact ⟨fun e => ⟨h, e⟩, fun e => e.2⟩
  · rw [if_neg h]
    exact ⟨fun e => absurd e (List.not_mem_nil _), fun e => absurd e.1 h⟩

theorem peakAt_pairwise (R : PeakInfo → PeakInfo → Prop) (psd : Buf ℝ) (n_freq : Nat)
    (th max_db fpb : ℝ) (i : Nat) : (peakAt psd n_freq th max_db fpb i).Pairwise R := by
  unfold peakAt
  simp only []
  split
  · exact List.pairwise_singleton _ _
  · exact List.Pairwise.nil

/-- With positive neighbours, a strict local maximum has a parabolic offset
strictly inside half a bin. -/
theorem peakOffset_bound (psd : Buf ℝ) (i : Nat) (hl : 0 < psd (i - 1)) (hr : 0 < psd (i + 1))
    (h1 : psd i > psd (i - 1)) (h2 : psd i > psd (i + 1)) :
    -(1 / 2) < peakOffset psd i ∧ peakOffset psd i < 1 / 2 := by
  have hu := to_db_lt_of_pos hl h1
  have hv := to_db_lt_of_pos hr h2
  have hD : to_db (psd (i - 1)) - 2 * to_db (psd i) + to_db (psd (i + 1)) < 0 := by linarith
  unfold peakOffset
  simp only []
  constructor
  · rw [lt_div_iff_of_neg hD]
    norm_num
    linarith
  · rw [div_lt_iff_of_neg hD]
    norm_num
    linarith

theorem mem_analyze (psd : Buf ℝ) (n_freq : Nat) (sample_rate threshold_db : ℝ) (r : PeakInfo) :
    r ∈ analyze_and_write_peaks true psd n_freq sample_rate threshold_db ↔
      ∃ i, 1 ≤ i ∧ i < 1 + (n_freq - 1 - 1) ∧
        r ∈ peakAt psd n_freq threshold_db (to_db (maxPsdVal psd n_freq))
          ((sample_rate / 2) / ((n_freq : ℝ) - 1)) i := by
  show r ∈ forUp _ 1 (n_freq - 1 - 1) [] ↔ _
  rw [forUp_append_mem]
  constructor
  · rintro (h | h)
    · exact absurd h (List.not_mem_nil _)
    · exact h
  · intro h
    exact Or.inr h

/-- C9: for `n_freq >= 3`, a bin `i` is emitted as a peak iff
`1 <= i <= n_freq-2`, `psd[i] > psd[i-1]`, `psd[i] > psd[i+1]` and
`to_db(psd[i]) > max_db + threshold_db`; hence every emitted record has
`power_dB > max_db + threshold_db` and its bin is neither `0` nor
`n_freq-1`. -/
theorem peak_acceptance_law (psd : Buf ℝ) (n_freq : Nat) (sample_rate threshold_db : ℝ)
    (hn : 3 ≤ n_freq) :
    (∀ i, (∃ r ∈ analyze_and_write_peaks true psd n_freq sample_rate threshold_db,
          r.index = i) ↔
        (1 ≤ i ∧ i ≤ n_freq - 2 ∧ psd i > psd (i - 1) ∧ psd i > psd (i + 1) ∧
          to_db (psd i) > to_db (maxPsdVal psd n_freq) + threshold_db)) ∧
    (∀ r ∈ analyze_and_write_peaks true psd n_freq sample_rate threshold_db,
      r.power_db > to_db (maxPsdVal psd n_freq) + threshold_db ∧
      r.power_db = to_db (psd r.index) ∧ r.index ≠ 0 ∧ r.index ≠ n_freq - 1) := by
  constructor
  · intro i
    constructor
    · rintro ⟨r, hr, hri⟩
      rw [mem_analyze] at hr
      obtain ⟨k, hk1, hk2, hk3⟩ := hr
      rw [mem_peakAt] at hk3
      obtain ⟨⟨c1, c2, c3⟩, e⟩ := hk3
      have hik : i = k := by rw [← hri, e]
      subst hik
      exact ⟨hk1, by omega, c1, c2, c3⟩
    · rintro ⟨h1, h2, c1, c2, c3⟩
      refine ⟨_, (mem_analyze psd n_freq sample_rate threshold_db _).mpr
        ⟨i, h1, by omega, (mem_peakAt psd n_freq _ _ _ i _).mpr ⟨⟨c1, c2, c3⟩, rfl⟩⟩, rfl⟩
  · intro r hr
    rw [mem_analyze] at hr
    obtain ⟨k, hk1, hk2, hk3⟩ := hr
    rw [mem_peakAt] at hk3
    obtain ⟨⟨_, _, c3⟩, e⟩ := hk3
    rw [e]
    exact ⟨c3, rfl, by show k ≠ 0; omega, by show k ≠ n_freq - 1; omega⟩

theorem peak_acceptance_law_witness :
    3 ≤ 5 ∧
    ((∃ r ∈ analyze_and_write_peaks true psdBump 5 100 (-40), r.index = 3) ↔
      (1 ≤ 3 ∧ 3 ≤ 5 - 2 ∧ psdBump 3 > psdBump (3 - 1) ∧ psdBump 3 > psdBump (3 + 1) ∧
        to_db (psdBump 3) > to_db (maxPsdVal psdBump 5) + (-40))) :=
  ⟨by decide, (peak_acceptance_law psdBump 5 100 (-40) (by decide)).1 3⟩

theorem maxPsdVal_psdTiny : maxPsdVal psdTiny 5 = ((10 : ℝ) ^ 25)⁻¹ := by
  norm_num [maxPsdVal, forUp, psdTiny]

theorem peakAt_psdTiny_one (fpb : ℝ) :
    peakAt psdTiny 5 (-40) (to_db (maxPsdVal psdTiny 5)) fpb 1
      = [{ index := 1, frequency := ((1 : ℝ) + 9 / 2) * fpb, power_db := -250,
           width_hz := ((scanRight psdTiny (to_db (psdTiny 1) - 3) (5 - 1 - 1) 1 : ℝ)
              - (scanLeft psdTiny (to_db (psdTiny 1) - 3) 1 : ℝ)) * fpb }] := by
  have hoff : peakOffset psdTiny 1 = 9 / 2 := by
    unfold peakOffset
    simp only [psdTiny]
    rw [to_db_zero, to_db_inv_pow, to_db_inv_pow]
    norm_num
  unfold peakAt
  simp only []
  rw [hoff, maxPsdVal_psdTiny]
  simp only [psdTiny]
  rw [to_db_inv_pow]
  norm_num

theorem peakAt_psdTiny_two (fpb : ℝ) :
    peakAt psdTiny 5 (-40) (to_db (maxPsdVal psdTiny 5)) fpb 2 = [] := by
  unfold peakAt
  simp only [psdTiny]
  rw [if_neg]
  norm_num

theorem peakAt_psdTiny_three (fpb : ℝ) :
    peakAt psdTiny 5 (-40) (to_db (maxPsdVal psdTiny 5)) fpb 3
      = [{ index := 3, frequency := ((3 : ℝ) + 0) * fpb, power_db := -280,
           width_hz := ((scanRight psdTiny (to_db (psdTiny 3) - 3) (5 - 1 - 3) 3 : ℝ)
              - (scanLeft psdTiny (to_db (psdTiny 3) - 3) 3 : ℝ)) * fpb }] := by
  have hoff : peakOffset psdTiny 3 = 0 := by
    unfold peakOffset
    simp only [psdTiny]
    rw [to_db_inv_pow, to_db_inv_pow]
    norm_num
  unfold peakAt
  simp only []
  rw [hoff, maxPsdVal_psdTiny]
  simp only [psdTiny]
  rw [to_db_inv_pow, to_db_inv_pow]
  norm_num

/-- C10, as stated, fails: the non-negative array
`[0, 1e-25, 1e-29, 1e-28, 1e-29]` with `sample_rate = 100`,
`threshold_db = -40` yields two records, at bins 1 and 3, whose corrected
frequencies are `68.75` and then `37.5`. -/
theorem peaks_not_ascending :
    (∀ i, 0 ≤ psdTiny i) ∧ 3 ≤ 5 ∧ (0 : ℝ) < 100 ∧
    (analyze_and_write_peaks true psdTiny 5 100 (-40)).map (fun r => (r.index, r.frequency))
      = [(1, 68.75), (3, 37.5)] ∧
    ¬ List.Chain' (fun r t : PeakInfo => r.frequency < t.frequency)
      (analyze_and_write_peaks true psdTiny 5 100 (-40)) := by
  have hout : analyze_and_write_peaks true psdTiny 5 100 (-40)
      = peakAt psdTiny 5 (-40) (to_db (maxPsdVal psdTiny 5)) ((100 / 2) / (((5 : Nat) : ℝ) - 1)) 1
        ++ peakAt psdTiny 5 (-40) (to_db (maxPsdVal psdTiny 5))
          ((100 / 2) / (((5 : Nat) : ℝ) - 1)) 3 := by
    unfold analyze_and_write_peaks
    simp only [if_true, Nat.reduceSub, Nat.reduceAdd, forUp, List.nil_append,
      peakAt_psdTiny_two, List.append_nil]
  refine ⟨?_, by decide, by norm_num, ?_, ?_⟩
  · intro i
    unfold psdTiny
    split <;> positivity
  · rw [hout, peakAt_psdTiny_one, peakAt_psdTiny_three]
    norm_num
  · rw [hout, peakAt_psdTiny_one, peakAt_psdTiny_three]
    norm_num

/-- C10, amended: for `n_freq >= 3` and `sample_rate > 0` the records are
emitted in strictly ascending bin order; and, over exact real arithmetic, when
both neighbours `psd[i-1]`, `psd[i+1]` of every emitted bin `i` are strictly
positive (as they are when all values are), also in ascending frequency order:
the corrected frequency `(i + p)*freq_per_bin` of each record is strictly
greater than that of the record emitted before it. -/
theorem peaks_ascending_order (psd : Buf ℝ) (n_freq : Nat) (sample_rate threshold_db : ℝ)
    (hn : 3 ≤ n_freq) (hsr : 0 < sample_rate) :
    List.Chain' (fun r t : PeakInfo => r.index < t.index)
      (analyze_and_write_peaks true psd n_freq sample_rate threshold_db) ∧
    ((∀ r ∈ analyze_and_write_peaks true psd n_freq sample_rate threshold_db,
        0 < psd (r.index - 1) ∧ 0 < psd (r.index + 1)) →
      List.Chain' (fun r t : PeakInfo => r.frequency < t.frequency)
        (analyze_and_write_peaks true psd n_freq sample_rate threshold_db)) := by
  have hfpb : 0 < (sample_rate / 2) / ((n_freq : ℝ) - 1) := by
    have h3 : (3 : ℝ) ≤ (n_freq : ℝ) := by exact_mod_cast hn
    exact div_pos (by linarith) (by linarith)
  constructor
  · refine List.Pairwise.chain' ?_
    show (forUp _ 1 (n_freq - 1 - 1) []).Pairwise _
    refine forUp_append_pairwise _ _ 1 (n_freq - 1 - 1) (fun i => peakAt_pairwise _ _ _ _ _ _ i)
      (fun i k _ h2 _ r hr t ht => ?_)
    rw [mem_peakAt] at hr ht
    rw [hr.2, ht.2]
    exact h2
  · intro hnb
    refine List.Pairwise.chain' ?_
    show (forUp _ 1 (n_freq - 1 - 1) []).Pairwise _
    refine forUp_append_pairwise _ _ 1 (n_freq - 1 - 1) (fun i => peakAt_pairwise _ _ _ _ _ _ i)
      (fun i k h1 h2 h3 r hr t ht => ?_)
    have hro := hnb r ((mem_analyze psd n_freq sample_rate threshold_db r).mpr
      ⟨i, h1, by omega, hr⟩)
    have hto := hnb t ((mem_analyze psd n_freq sample_rate threshold_db t).mpr
      ⟨k, by omega, h3, ht⟩)
    rw [mem_peakAt] at hr ht
    obtain ⟨⟨ci1, ci2, _⟩, er⟩ := hr
    obtain ⟨⟨ck1, ck2, _⟩, et⟩ := ht
    rw [er] at hro
    rw [et] at hto
    have bi := peakOffset_bound psd i hro.1 hro.2 ci1 ci2
    have bk := peakOffset_bound psd k hto.1 hto.2 ck1 ck2
    have hik : (i : ℝ) + 1 ≤ (k : ℝ) := by exact_mod_cast h2
    rw [er, et]
    show ((i : ℝ) + peakOffset psd i) * _ < ((k : ℝ) + peakOffset psd k) * _
    exact mul_lt_mul_of_pos_right (by linarith [bi.2, bk.1]) hfpb

theorem peaks_ascending_order_witness :
    3 ≤ 5 ∧ (0 : ℝ) < 100 ∧
    (∀ r ∈ analyze_and_write_peaks true psdBump 5 100 (-40),
      0 < psdBump (r.index - 1) ∧ 0 < psdBump (r.index + 1)) ∧
    List.Chain' (fun r t : PeakInfo => r.index < t.index)
      (analyze_and_write_peaks true psdBump 5 100 (-40)) ∧
    List.Chain' (fun r t : PeakInfo => r.frequency < t.frequency)
      (analyze_and_write_peaks true psdBump 5 100 (-40)) := by
  have hpos : ∀ i, 0 < psdBump i := by
    intro i
    unfold psdBump
    split <;> norm_num
  have hnb : ∀ r ∈ analyze_and_write_peaks true psdBump 5 100 (-40),
      0 < psdBump (r.index - 1) ∧ 0 < psdBump (r.index + 1) :=
    fun r _ => ⟨hpos _, hpos _⟩
  exact ⟨by decide, by norm_num, hnb,
    (peaks_ascending_order psdBump 5 100 (-40) (by decide) (by norm_num)).1,
    (peaks_ascending_order psdBump 5 100 (-40) (by decide) (by norm_num)).2 hnb⟩

/-! ## Bandwidth scan -/

theorem scanLeft_le (psd : Buf ℝ) (h : ℝ) (l : Nat) : scanLeft psd h l ≤ l := by
  induction l with
  | zero => exact le_refl 0
  | succ l ih =>
    rw [scanLeft]
    split
    · exact le_trans ih (Nat.le_succ l)
    · exact le_refl _

/-- Every bin the left scan has passed is above the threshold. -/
theorem scanLeft_above (psd : Buf ℝ) (h : ℝ) (l m : Nat) (h1 : scanLeft psd h l < m)
    (h2 : m ≤ l) : to_db (psd m) > h := by
  induction l with
  | zero =>
    rw [scanLeft] at h1
    omega
  | succ l ih =>
    rw [scanLeft] at h1
    split at h1
    · next hc =>
      by_cases hm : m = l + 1
      · rw [hm]; exact hc
      · exact ih h1 (by omega)
    · omega

/-- The left scan stops at bin 0 or at a bin not above the threshold. -/
theorem scanLeft_exit (psd : Buf ℝ) (h : ℝ) (l : Nat) :
    scanLeft psd h l = 0 ∨ to_db (psd (scanLeft psd h l)) ≤ h := by
  induction l with
  | zero => exact Or.inl rfl
  | succ l ih =>
    rw [scanLeft]
    split
    · exact ih
    · next hc => exact Or.inr (not_lt.mp hc)

theorem scanLeft_lt (psd : Buf ℝ) (h : ℝ) (l : Nat) (hl : 0 < l) (hc : to_db (psd l) > h) :
    scanLeft psd h l < l := by
  obtain ⟨k, rfl⟩ : ∃ k, l = k + 1 := ⟨l - 1, by omega⟩
  rw [scanLeft, if_pos hc]
  exact Nat.lt_succ_of_le (scanLeft_le psd h k)

theorem scanRight_bounds (psd : Buf ℝ) (h : ℝ) (gap r : Nat) :
    r ≤ scanRight psd h gap r ∧ scanRight psd h gap r ≤ r + gap := by
  induction gap generalizing r with
  | zero => exact ⟨le_refl r, le_refl r⟩
  | succ g ih =>
    rw [scanRight]
    split
    · have := ih (r + 1)
      omega
    · omega

/-- Every bin the right scan has passed is above the threshold. -/
theorem scanRight_above (psd : Buf ℝ) (h : ℝ) (gap r m : Nat) (h1 : r ≤ m)
    (h2 : m < scanRight psd h gap r) : to_db (psd m) > h := by
  induction gap generalizing r with
  | zero =>
    rw [scanRight] at h2
    omega
  | succ g ih =>
    rw [scanRight] at h2
    split at h2
    · next hc =>
      by_cases hm : m = r
      · rw [hm]; exact hc
      · exact ih (r + 1) (by omega) h2
    · omega

/-- The right scan stops at the last bin or at a bin not above the
threshold. -/
theorem scanRight_exit (psd : Buf ℝ) (h : ℝ) (gap r : Nat) :
    scanRight psd h gap r = r + gap ∨ to_db (psd (scanRight psd h gap r)) ≤ h := by
  induction gap generalizing r with
  | zero => exact Or.inl rfl
  | succ g ih =>
    rw [scanRight]
    split
    · rcases ih (r + 1) with e | e
      · exact Or.inl (by omega)
      · exact Or.inr e
    · next hc => exact Or.inr (not_lt.mp hc)

theorem scanRight_gt (psd : Buf ℝ) (h : ℝ) (gap r : Nat) (hg : 0 < gap)
    (hc : to_db (psd r) > h) : r < scanRight psd h gap r := by
  obtain ⟨g, rfl⟩ : ∃ g, gap = g + 1 := ⟨gap - 1, by omega⟩
  rw [scanRight, if_pos hc]
  exact Nat.lt_of_succ_le (scanRight_bounds psd h g (r + 1)).1

/-- What `analyze_and_write_peaks` writes for a record: its bin is interior and
accepted, and its three printed values are those of lines 35-58. -/
theorem analyze_record (psd : Buf ℝ) (n_freq : Nat) (sample_rate threshold_db : ℝ)
    (r : PeakInfo) (hr : r ∈ analyze_and_write_peaks true psd n_freq sample_rate threshold_db) :
    1 ≤ r.index ∧ r.index + 1 < n_freq ∧
    psd r.index > psd (r.index - 1) ∧ psd r.index > psd (r.index + 1) ∧
    r.frequency = ((r.index : ℝ) + peakOffset psd r.index)
      * ((sample_rate / 2) / ((n_freq : ℝ) - 1)) ∧
    r.power_db = to_db (psd r.index) ∧
    r.width_hz
      = ((scanRight psd (to_db (psd r.index) - 3) (n_freq - 1 - r.index) r.index : ℝ)
          - (scanLeft psd (to_db (psd r.index) - 3) r.index : ℝ))
        * ((sample_rate / 2) / ((n_freq : ℝ) - 1)) := by
  rw [mem_analyze] at hr
  obtain ⟨k, hk1, hk2, hk3⟩ := hr
  rw [mem_peakAt] at hk3
  obtain ⟨⟨c1, c2, _⟩, e⟩ := hk3
  rw [e]
  exact ⟨hk1, by show k + 1 < n_freq; omega, c1, c2, rfl, rfl, rfl⟩

theorem maxPsdVal_psdBump : maxPsdVal psdBump 5 = 2 := by
  norm_num [maxPsdVal, forUp, psdBump]

theorem bumpRecord_mem : bumpRecord ∈ analyze_and_write_peaks true psdBump 5 100 (-40) := by
  rw [mem_analyze]
  refine ⟨1, le_refl 1, by decide, ?_⟩
  rw [mem_peakAt]
  refine ⟨⟨?_, ?_, ?_⟩, rfl⟩
  · norm_num [psdBump]
  · norm_num [psdBump]
  · rw [maxPsdVal_psdBump]
    norm_num [psdBump]

/-- C11: for `n_freq >= 3` and every record written, with `i` its bin and
`half = to_db(psd[i]) - 3`, the two scans end at `l < i < r <= n_freq-1` with
`to_db(psd[m]) > half` for all `l < m < r`, `l = 0` or `to_db(psd[l]) <= half`,
`r = n_freq-1` or `to_db(psd[r]) <= half`, and the reported bandwidth is
`(r - l)*(sample_rate/2)/(n_freq-1)`. -/
theorem bandwidth_scan (psd : Buf ℝ) (n_freq : Nat) (sample_rate threshold_db : ℝ)
    (_hn : 3 ≤ n_freq) (r : PeakInfo)
    (hr : r ∈ analyze_and_write_peaks true psd n_freq sample_rate threshold_db) :
    scanLeft psd (to_db (psd r.index) - 3) r.index < r.index ∧
    r.index < scanRight psd (to_db (psd r.index) - 3) (n_freq - 1 - r.index) r.index ∧
    scanRight psd (to_db (psd r.index) - 3) (n_freq - 1 - r.index) r.index ≤ n_freq - 1 ∧
    (∀ m, scanLeft psd (to_db (psd r.index) - 3) r.index < m →
      m < scanRight psd (to_db (psd r.index) - 3) (n_freq - 1 - r.index) r.index →
      to_db (psd m) > to_db (psd r.index) - 3) ∧
    (scanLeft psd (to_db (psd r.index) - 3) r.index = 0 ∨
      to_db (psd (scanLeft psd (to_db (psd r.index) - 3) r.index))
        ≤ to_db (psd r.index) - 3) ∧
    (scanRight psd (to_db (psd r.index) - 3) (n_freq - 1 - r.index) r.index = n_freq - 1 ∨
      to_db (psd (scanRight psd (to_db (psd r.index) - 3) (n_freq - 1 - r.index) r.index))
        ≤ to_db (psd r.index) - 3) ∧
    r.width_hz
      = ((scanRight psd (to_db (psd r.index) - 3) (n_freq - 1 - r.index) r.index : ℝ)
          - (scanLeft psd (to_db (psd r.index) - 3) r.index : ℝ))
        * (sample_rate / 2) / ((n_freq : ℝ) - 1) := by
  obtain ⟨h1, h2, _, _, _, _, hw⟩ := analyze_record psd n_freq sample_rate threshold_db r hr
  have hself : to_db (psd r.index) > to_db (psd r.index) - 3 := by linarith
  have hb := scanRight_bounds psd (to_db (psd r.index) - 3) (n_freq - 1 - r.index) r.index
  refine ⟨scanLeft_lt psd _ r.index h1 hself,
    scanRight_gt psd _ (n_freq - 1 - r.index) r.index (by omega) hself, by omega, ?_, ?_, ?_, ?_⟩
  · intro m hm1 hm2
    by_cases hm : m ≤ r.index
    · exact scanLeft_above psd _ r.index m hm1 hm
    · exact scanRight_above psd _ (n_freq - 1 - r.index) r.index m (by omega) hm2
  · exact scanLeft_exit psd _ r.index
  · rcases scanRight_exit psd (to_db (psd r.index) - 3) (n_freq - 1 - r.index) r.index with e | e
    · exact Or.inl (by omega)
    · exact Or.inr e
  · rw [hw, mul_div_assoc]

theorem bandwidth_scan_witness :
    3 ≤ 5 ∧ bumpRecord ∈ analyze_and_write_peaks true psdBump 5 100 (-40) ∧
    scanLeft psdBump (to_db (psdBump bumpRecord.index) - 3) bumpRecord.index
      < bumpRecord.index ∧
    bumpRecord.index
      < scanRight psdBump (to_db (psdBump bumpRecord.index) - 3) (5 - 1 - bumpRecord.index)
          bumpRecord.index :=
  ⟨by decide, bumpRecord_mem,
    (bandwidth_scan psdBump 5 100 (-40) (by decide) bumpRecord bumpRecord_mem).1,
    (bandwidth_scan psdBump 5 100 (-40) (by decide) bumpRecord bumpRecord_mem).2.1⟩

/-- C19: for `n_freq >= 3`, `sample_rate > 0` and every record written, the
left scan ends at least one bin left of `i` and the right scan at least one bin
right of `i`, so the reported bandwidth is at least two bin spacings:
`width >= 2*(sample_rate/2)/(n_freq-1)`. -/
theorem min_bandwidth (psd : Buf ℝ) (n_freq : Nat) (sample_rate threshold_db : ℝ)
    (_hn : 3 ≤ n_freq) (hsr : 0 < sample_rate) (r : PeakInfo)
    (hr : r ∈ analyze_and_write_peaks true psd n_freq sample_rate threshold_db) :
    scanLeft psd (to_db (psd r.index) - 3) r.index + 1 ≤ r.index ∧
    r.index + 1 ≤ scanRight psd (to_db (psd r.index) - 3) (n_freq - 1 - r.index) r.index ∧
    r.width_hz ≥ 2 * (sample_rate / 2) / ((n_freq : ℝ) - 1) := by
  obtain ⟨h1, h2, _, _, _, _, hw⟩ := analyze_record psd n_freq sample_rate threshold_db r hr
  have hself : to_db (psd r.index) > to_db (psd r.index) - 3 := by linarith
  have hl := scanLeft_lt psd _ r.index h1 hself
  have hrr := scanRight_gt psd _ (n_freq - 1 - r.index) r.index (by omega) hself
  refine ⟨hl, hrr, ?_⟩
  have hfpb : 0 < (sample_rate / 2) / ((n_freq : ℝ) - 1) := by
    have h3 : (3 : ℝ) ≤ (n_freq : ℝ) := by exact_mod_cast _hn
    exact div_pos (by linarith) (by linarith)
  have hl' : (scanLeft psd (to_db (psd r.index) - 3) r.index : ℝ) + 1 ≤ (r.index : ℝ) := by
    exact_mod_cast hl
  have hr' : (r.index : ℝ) + 1
      ≤ (scanRight psd (to_db (psd r.index) - 3) (n_freq - 1 - r.index) r.index : ℝ) := by
    exact_mod_cast hrr
  rw [hw, ge_iff_le, mul_div_assoc]
  exact mul_le_mul_of_nonneg_right (by linarith) (le_of_lt hfpb)

theorem min_bandwidth_witness :
    3 ≤ 5 ∧ (0 : ℝ) < 100 ∧ bumpRecord ∈ analyze_and_write_peaks true psdBump 5 100 (-40) ∧
    bumpRecord.width_hz ≥ 2 * ((100 : ℝ) / 2) / (((5 : Nat) : ℝ) - 1) :=
  ⟨by decide, by norm_num, bumpRecord_mem,
    (min_bandwidth psdBump 5 100 (-40) (by decide) (by norm_num) bumpRecord bumpRecord_mem).2.2⟩

/-! ## The dB conversion -/

theorem to_db_of_nonpos {x : ℝ} (hx : x ≤ 0) : to_db x = -200 := by
  unfold to_db
  rw [if_pos hx]

/-- C12, as stated, fails: `to_db(1e-25) = -250`, below `-200`. -/
theorem to_db_below_floor :
    to_db (((10 : ℝ) ^ 25)⁻¹) = -250 ∧ ¬ (to_db (((10 : ℝ) ^ 25)⁻¹) ≥ -200) := by
  have h : to_db (((10 : ℝ) ^ 25)⁻¹) = -250 := by
    rw [to_db_inv_pow]
    norm_num
  refine ⟨h, ?_⟩
  rw [h]
  norm_num

/-- C12, amended: `to_db(v) = -200` for every `v <= 0` and
`to_db(v) = 10*log10(v)` for every `v > 0`; `to_db(v) >= -200` holds exactly
when `v <= 0` or `v >= 1e-20`. -/
theorem to_db_floor (v : ℝ) :
    (v ≤ 0 → to_db v = -200) ∧
    (0 < v → to_db v = 10 * Real.logb 10 v) ∧
    (to_db v ≥ -200 ↔ (v ≤ 0 ∨ ((10 : ℝ) ^ 20)⁻¹ ≤ v)) := by
  refine ⟨fun h => to_db_of_nonpos h, fun h => to_db_of_pos h, ?_⟩
  have hpos : (0 : ℝ) < ((10 : ℝ) ^ 20)⁻¹ := inv_pos.mpr (pow_pos (by norm_num) 20)
  have h20 : to_db (((10 : ℝ) ^ 20)⁻¹) = -200 := by
    rw [to_db_inv_pow]
    norm_num
  constructor
  · intro h
    by_cases hv : v ≤ 0
    · exact Or.inl hv
    · right
      by_contra hlt
      have := to_db_lt_of_pos (not_le.mp hv) (not_le.mp hlt)
      rw [h20] at this
      linarith
  · rintro (hv | hv)
    · rw [to_db_of_nonpos hv]
    · rcases eq_or_lt_of_le hv with e | e
      · rw [← e, h20]
      · have := to_db_lt_of_pos hpos e
        rw [h20] at this
        exact le_of_lt this

theorem to_db_floor_witness :
    ((0 : ℝ) < 1 → to_db 1 = 10 * Real.logb 10 1) ∧ to_db 1 ≥ -200 :=
  ⟨(to_db_floor 1).2.1, (to_db_floor 1).2.2.mpr (Or.inr (by norm_num))⟩

/-! ## The running maximum -/

theorem maxPsdVal_succ (psd : Buf ℝ) (n : Nat) :
    maxPsdVal psd (n + 1) = if psd n > maxPsdVal psd n then psd n else maxPsdVal psd n := by
  unfold maxPsdVal
  rw [forUp_succ_last, Nat.zero_add]

/-- The running maximum started at `0.0` is the larger of `0` and the array
maximum. -/
theorem maxPsdVal_spec (psd : Buf ℝ) (n : Nat) :
    0 ≤ maxPsdVal psd n ∧ (∀ i, i < n → psd i ≤ maxPsdVal psd n) ∧
    (maxPsdVal psd n = 0 ∨ ∃ i, i < n ∧ psd i = maxPsdVal psd n) := by
  induction n with
  | zero =>
    refine ⟨le_of_eq rfl, fun i hi => absurd hi (Nat.not_lt_zero i), Or.inl rfl⟩
  | succ n ih =>
    obtain ⟨h0, hle, hex⟩ := ih
    rw [maxPsdVal_succ]
    by_cases hc : psd n > maxPsdVal psd n
    · rw [if_pos hc]
      refine ⟨le_trans h0 (le_of_lt hc), fun i hi => ?_, Or.inr ⟨n, Nat.lt_succ_self n, rfl⟩⟩
      by_cases hin : i = n
      · rw [hin]
      · exact le_trans (hle i (by omega)) (le_of_lt hc)
    · rw [if_neg hc]
      refine ⟨h0, fun i hi => ?_, ?_⟩
      · by_cases hin : i = n
        · rw [hin]; exact not_lt.mp hc
        · exact hle i (by omega)
      · rcases hex with e | ⟨i, hi, e⟩
        · exact Or.inl e
        · exact Or.inr ⟨i, by omega, e⟩

/-- C17: for every non-empty PSD array, all-zero and all-negative ones
included, the `max_db` computed from the running maximum started at `0.0` is
`to_db` of the true maximum element `M` of the array. -/
theorem max_db_is_db_of_max (psd : Buf ℝ) (n_freq : Nat) (M : ℝ)
    (hM : ∃ i, i < n_freq ∧ psd i = M) (hmax : ∀ i, i < n_freq → psd i ≤ M) :
    to_db (maxPsdVal psd n_freq) = to_db M := by
  obtain ⟨h0, hle, hex⟩ := maxPsdVal_spec psd n_freq
  obtain ⟨i0, hi0, e0⟩ := hM
  rcases hex with e | ⟨i, hi, e⟩
  · have hM0 : M ≤ 0 := by
      rw [← e0, ← e]
      exact hle i0 hi0
    rw [e, to_db_of_nonpos (le_refl 0), to_db_of_nonpos hM0]
  · have h1 : maxPsdVal psd n_freq ≤ M := by rw [← e]; exact hmax i hi
    have h2 : M ≤ maxPsdVal psd n_freq := by rw [← e0]; exact hle i0 hi0
    rw [le_antisymm h1 h2]

theorem max_db_is_db_of_max_witness :
    (∃ i, i < 3 ∧ (fun _ : Nat => (-5 : ℝ)) i = -5) ∧
    (∀ i, i < 3 → (fun _ : Nat => (-5 : ℝ)) i ≤ -5) ∧
    to_db (maxPsdVal (fun _ => -5) 3) = to_db (-5) :=
  ⟨⟨0, by decide, rfl⟩, fun _ _ => le_refl _,
    max_db_is_db_of_max (fun _ => -5) 3 (-5) ⟨0, by decide, rfl⟩ (fun _ _ => le_refl _)⟩

/-! ## AIC -/

theorem Dbl.ofReal_of_inRange (x : ℝ) (h : Dbl.InRange x) : Dbl.ofReal x = Dbl.fin x := by
  rcases h with h | ⟨h1, h2⟩
  · rw [h]; exact Dbl.ofReal_zero
  · exact Dbl.ofReal_of_mid x h1 h2

/-- Twice an `int` is stored exactly. -/
theorem Dbl.inRange_two_mul_int (n : Int) (h1 : -2 ^ 31 ≤ n) (h2 : n ≤ 2 ^ 31) :
    Dbl.InRange (2 * (n : ℝ)) := by
  by_cases hn : n = 0
  · left; rw [hn]; norm_num
  · right
    have hge : (1 : ℝ) ≤ |(n : ℝ)| := by
      have : (1 : Int) ≤ |n| := Int.one_le_abs hn
      exact_mod_cast this
    have hle : |(n : ℝ)| ≤ 2 ^ 31 := by
      rw [abs_le]
      constructor
      · exact_mod_cast h1
      · exact_mod_cast h2
    rw [abs_mul, abs_two]
    constructor
    · have := Dbl.underflowBound_pos
      have h3 : Dbl.underflowBound < 1 := by
        unfold Dbl.underflowBound
        rw [inv_lt_one_iff₀]
        right
        norm_num
      linarith
    · have h3 : (2 : ℝ) * 2 ^ 31 < Dbl.overflowBound := by
        unfold Dbl.overflowBound
        norm_num
      linarith

theorem wrap32_of_range (x : Int) (h1 : -2 ^ 31 ≤ x) (h2 : x < 2 ^ 31) : wrap32 x = x := by
  unfold wrap32
  rw [Int.emod_eq_of_lt (by omega) (by omega)]
  omega

/-- C13, as stated, fails twice. With `variance = +inf` (and `N = 1`) the
result is `+inf` although `variance <= 0` does not hold; with
`order = INT_MAX` the sum `order + 1` wraps to `INT_MIN` and the result is
`-4294967296`, not `N*ln(variance) + 2*(order + 1) = 4294967296`. -/
theorem aic_not_as_stated :
    (calculate_aic 1 0 Dbl.pinf = Dbl.pinf ∧ ¬ (Dbl.pinf ≤ (0 : Dbl))) ∧
    (calculate_aic 0 (2 ^ 31 - 1) (Dbl.fin 1) = Dbl.fin (-4294967296) ∧
      Dbl.fin (-4294967296)
        ≠ Dbl.fin (((0 : Int) : ℝ) * Real.log 1 + 2 * (((2 ^ 31 - 1 : Int) : ℝ) + 1))) := by
  have hn : ¬ (Dbl.pinf ≤ (0 : Dbl)) := Dbl.not_pinf_le_fin 0
  refine ⟨⟨?_, hn⟩, ?_, ?_⟩
  · unfold calculate_aic
    rw [if_neg hn]
    show Dbl.fin ((1 : Int) : ℝ) * Dbl.pinf + 2 * Dbl.fin ((wrap32 (0 + 1) : Int) : ℝ) = Dbl.pinf
    have h1 : Dbl.fin ((1 : Int) : ℝ) * Dbl.pinf = Dbl.pinf := by
      show Dbl.infTimes true _ = Dbl.pinf
      unfold Dbl.infTimes
      norm_num
    have h2 : (2 : Dbl) * Dbl.fin ((wrap32 (0 + 1) : Int) : ℝ)
        = Dbl.fin (2 * ((wrap32 (0 + 1) : Int) : ℝ)) := by
      rw [Dbl.two_def, Dbl.fin_mul_fin]
      exact Dbl.ofReal_of_inRange _ (Dbl.inRange_two_mul_int _ (by decide) (by decide))
    rw [h1, h2]
    rfl
  · have hle : ¬ (Dbl.fin 1 ≤ (0 : Dbl)) := by
      rw [Dbl.zero_def, Dbl.fin_le_fin]
      norm_num
    unfold calculate_aic
    rw [if_neg hle]
    have hw : wrap32 (2 ^ 31 - 1 + 1) = -2 ^ 31 := by decide
    have hlog : Dbl.log (Dbl.fin 1) = Dbl.fin 0 := by
      show (if (1 : ℝ) < 0 then Dbl.nan else if (1 : ℝ) = 0 then Dbl.ninf
        else Dbl.ofReal (Real.log 1)) = Dbl.fin 0
      rw [if_neg (by norm_num), if_neg (by norm_num), Real.log_one, Dbl.ofReal_zero]
    rw [hw, hlog]
    show Dbl.fin ((0 : Int) : ℝ) * Dbl.fin 0 + 2 * Dbl.fin (((-2 ^ 31 : Int)) : ℝ)
      = Dbl.fin (-4294967296)
    rw [Dbl.fin_mul_fin, Dbl.two_def, Dbl.fin_mul_fin,
      Dbl.ofReal_of_inRange _ (Dbl.inRange_two_mul_int _ (by decide) (by decide))]
    norm_num
    rw [Dbl.ofReal_zero, Dbl.fin_add_fin]
    have h4 : Dbl.InRange (0 + -4294967296) := by
      have := Dbl.inRange_two_mul_int (-2 ^ 31) (by decide) (by decide)
      norm_num at this
      norm_num
      exact this
    rw [Dbl.ofReal_of_inRange _ h4]
    norm_num
  · intro h
    have := Dbl.fin.inj h
    norm_num at this

/-- C13, amended: for every `signal_length`, every `order` of the `int` range
other than `INT_MAX`, and every finite `variance`, `calculate_aic` returns
positive infinity iff `variance <= 0`, and otherwise exactly
`N*ln(variance) + 2*(order + 1)`, as long as `ln(variance)`, the product and the
sum stay in the binary64 range (mantissa rounding aside). -/
theorem aic_value (signal_length order : Int) (v : ℝ)
    (ho1 : -2 ^ 31 ≤ order) (ho2 : order < 2 ^ 31 - 1)
    (hrange : 0 < v → Dbl.InRange (Real.log v) ∧
      Dbl.InRange ((signal_length : ℝ) * Real.log v) ∧
      Dbl.InRange ((signal_length : ℝ) * Real.log v + 2 * ((order : ℝ) + 1))) :
    (calculate_aic signal_length order (Dbl.fin v) = Dbl.pinf ↔ v ≤ 0) ∧
    (0 < v →
      calculate_aic signal_length order (Dbl.fin v)
        = Dbl.fin ((signal_length : ℝ) * Real.log v + 2 * ((order : ℝ) + 1))) := by
  have hval : 0 < v →
      calculate_aic signal_length order (Dbl.fin v)
        = Dbl.fin ((signal_length : ℝ) * Real.log v + 2 * ((order : ℝ) + 1)) := by
    intro hv
    obtain ⟨r1, r2, r3⟩ := hrange hv
    have hle : ¬ (Dbl.fin v ≤ (0 : Dbl)) := by
      rw [Dbl.zero_def, Dbl.fin_le_fin]
      exact not_le.mpr hv
    have hlog : Dbl.log (Dbl.fin v) = Dbl.fin (Real.log v) := by
      show (if v < 0 then Dbl.nan else if v = 0 then Dbl.ninf
        else Dbl.ofReal (Real.log v)) = _
      rw [if_neg (not_lt.mpr (le_of_lt hv)), if_neg (ne_of_gt hv), Dbl.ofReal_of_inRange _ r1]
    have hcast : (((order + 1 : Int)) : ℝ) = (order : ℝ) + 1 := by push_cast; ring
    unfold calculate_aic
    rw [if_neg hle, hlog, wrap32_of_range _ (by omega) (by omega)]
    show Dbl.fin (signal_length : ℝ) * Dbl.fin (Real.log v)
      + 2 * Dbl.fin (((order + 1 : Int)) : ℝ) = _
    rw [Dbl.fin_mul_fin, Dbl.ofReal_of_inRange _ r2, Dbl.two_def, Dbl.fin_mul_fin,
      Dbl.ofReal_of_inRange _ (Dbl.inRange_two_mul_int _ (by omega) (by omega)),
      Dbl.fin_add_fin, hcast, Dbl.ofReal_of_inRange _ r3]
  refine ⟨⟨fun h => ?_, fun hv => ?_⟩, hval⟩
  · by_contra hv
    rw [hval (not_le.mp hv)] at h
    exact Dbl.noConfusion h
  · unfold calculate_aic
    rw [if_pos (by rw [Dbl.zero_def, Dbl.fin_le_fin]; exact hv)]

theorem aic_value_witness :
    (-2 ^ 31 : Int) ≤ 4 ∧ (4 : Int) < 2 ^ 31 - 1 ∧ 0 < Real.exp 1 ∧
    calculate_aic 256 4 (Dbl.fin (Real.exp 1))
      = Dbl.fin ((((256 : Int)) : ℝ) * Real.log (Real.exp 1)
          + 2 * ((((4 : Int)) : ℝ) + 1)) := by
  have hmod : ∀ x : ℝ, 1 ≤ x → x ≤ 2 ^ 10 → Dbl.InRange x := by
    intro x h1 h2
    right
    rw [abs_of_pos (by linarith)]
    constructor
    · have := Dbl.underflowBound_lt_one
      linarith
    · have : (2 : ℝ) ^ 10 < Dbl.overflowBound := by
        unfold Dbl.overflowBound
        norm_num
      linarith
  have hr : 0 < Real.exp 1 → Dbl.InRange (Real.log (Real.exp 1)) ∧
      Dbl.InRange ((((256 : Int)) : ℝ) * Real.log (Real.exp 1)) ∧
      Dbl.InRange ((((256 : Int)) : ℝ) * Real.log (Real.exp 1)
        + 2 * ((((4 : Int)) : ℝ) + 1)) := by
    intro _
    rw [Real.log_exp]
    exact ⟨hmod _ (by norm_num) (by norm_num), hmod _ (by norm_num) (by norm_num),
      hmod _ (by norm_num) (by norm_num)⟩
  exact ⟨by decide, by decide, Real.exp_pos 1,
    (aic_value 256 4 (Real.exp 1) (by decide) (by decide) hr).2 (Real.exp_pos 1)⟩

/-! ## Interpolation -/

theorem maxPsdVal_psdFlat : maxPsdVal psdFlat 3 = ((10 : ℝ) ^ 20)⁻¹ := by
  norm_num [maxPsdVal, forUp, psdFlat]

/-- C16: the interpolation singularity is reachable. For
`psd = [0, 1e-20, 0]`, `n_freq = 3`, `threshold_db = -40`, bin 1 passes the
acceptance test (a record is written for it) while
`y(0) - 2*y(1) + y(2) = 0`, the divisor of the offset `p`. -/
theorem interpolation_singularity :
    3 ≤ 3 ∧ (-40 : ℝ) < 0 ∧
    (psdFlat 1 > psdFlat (1 - 1) ∧ psdFlat 1 > psdFlat (1 + 1) ∧
      to_db (psdFlat 1) > to_db (maxPsdVal psdFlat 3) + (-40)) ∧
    (∃ r ∈ analyze_and_write_peaks true psdFlat 3 100 (-40), r.index = 1) ∧
    to_db (psdFlat (1 - 1)) - 2 * to_db (psdFlat 1) + to_db (psdFlat (1 + 1)) = 0 ∧
    peakOffset psdFlat 1
      = 0.5 * (to_db (psdFlat (1 - 1)) - to_db (psdFlat (1 + 1))) / 0 := by
  have h1 : to_db (psdFlat 1) = -200 := by
    show to_db (((10 : ℝ) ^ 20)⁻¹) = -200
    rw [to_db_inv_pow]
    norm_num
  have h0 : to_db (psdFlat (1 - 1)) = -200 := to_db_zero
  have h2 : to_db (psdFlat (1 + 1)) = -200 := to_db_zero
  have hmax : to_db (maxPsdVal psdFlat 3) = -200 := by
    rw [maxPsdVal_psdFlat, to_db_inv_pow]
    norm_num
  have hpos : (0 : ℝ) < ((10 : ℝ) ^ 20)⁻¹ := inv_pos.mpr (pow_pos (by norm_num) 20)
  have hacc : psdFlat 1 > psdFlat (1 - 1) ∧ psdFlat 1 > psdFlat (1 + 1) ∧
      to_db (psdFlat 1) > to_db (maxPsdVal psdFlat 3) + (-40) := by
    refine ⟨hpos, hpos, ?_⟩
    rw [h1, hmax]
    norm_num
  have hden : to_db (psdFlat (1 - 1)) - 2 * to_db (psdFlat 1) + to_db (psdFlat (1 + 1)) = 0 := by
    rw [h0, h1, h2]
    norm_num
  refine ⟨le_refl 3, by norm_num, hacc, ?_, hden, ?_⟩
  · exact ⟨_, (mem_analyze psdFlat 3 100 (-40) _).mpr
      ⟨1, le_refl 1, by decide, (mem_peakAt psdFlat 3 _ _ _ 1 _).mpr ⟨hacc, rfl⟩⟩, rfl⟩
  · unfold peakOffset
    simp only []
    rw [hden]

/-- C18, amended: over exact real arithmetic, for a PSD array of strictly
positive values (`n_freq >= 3`) and every record written, with `i` its bin:
the interpolation divisor
`y(i-1) - 2*y(i) + y(i+1)` is strictly negative, the offset satisfies
`|p| < 1/2`, the corrected frequency is `(i + p)*freq_per_bin`, and so (for
`sample_rate > 0`) it lies strictly within half a bin of `i*freq_per_bin`. -/
theorem sub_bin_bound (psd : Buf ℝ) (n_freq : Nat) (sample_rate threshold_db : ℝ)
    (_hn : 3 ≤ n_freq) (hpos : ∀ i, i < n_freq → 0 < psd i) (r : PeakInfo)
    (hr : r ∈ analyze_and_write_peaks true psd n_freq sample_rate threshold_db) :
    to_db (psd (r.index - 1)) - 2 * to_db (psd r.index) + to_db (psd (r.index + 1)) < 0 ∧
    |peakOffset psd r.index| < 1 / 2 ∧
    r.frequency
      = ((r.index : ℝ) + peakOffset psd r.index) * ((sample_rate / 2) / ((n_freq : ℝ) - 1)) ∧
    (0 < sample_rate →
      |r.frequency - (r.index : ℝ) * ((sample_rate / 2) / ((n_freq : ℝ) - 1))|
        < ((sample_rate / 2) / ((n_freq : ℝ) - 1)) / 2) := by
  obtain ⟨h1, h2, c1, c2, hf, _, _⟩ := analyze_record psd n_freq sample_rate threshold_db r hr
  have hl : 0 < psd (r.index - 1) := hpos _ (by omega)
  have hr' : 0 < psd (r.index + 1) := hpos _ (by omega)
  have hu := to_db_lt_of_pos hl c1
  have hv := to_db_lt_of_pos hr' c2
  have hb := peakOffset_bound psd r.index hl hr' c1 c2
  have habs : |peakOffset psd r.index| < 1 / 2 := abs_lt.mpr hb
  refine ⟨by linarith, habs, hf, fun hsr => ?_⟩
  have hfpb : 0 < (sample_rate / 2) / ((n_freq : ℝ) - 1) := by
    have h3 : (3 : ℝ) ≤ (n_freq : ℝ) := by exact_mod_cast _hn
    exact div_pos (by linarith) (by linarith)
  have e : r.frequency - (r.index : ℝ) * ((sample_rate / 2) / ((n_freq : ℝ) - 1))
      = peakOffset psd r.index * ((sample_rate / 2) / ((n_freq : ℝ) - 1)) := by
    rw [hf]; ring
  rw [e, abs_mul, abs_of_pos hfpb]
  have := mul_lt_mul_of_pos_right habs hfpb
  linarith

theorem psdBump_pos (i : Nat) : 0 < psdBump i := by
  unfold psdBump
  split <;> norm_num

theorem sub_bin_bound_witness :
    3 ≤ 5 ∧ (∀ i, i < 5 → 0 < psdBump i) ∧
    bumpRecord ∈ analyze_and_write_peaks true psdBump 5 100 (-40) ∧
    |peakOffset psdBump bumpRecord.index| < 1 / 2 :=
  ⟨by decide, fun i _ => psdBump_pos i, bumpRecord_mem,
    (sub_bin_bound psdBump 5 100 (-40) (by decide) (fun i _ => psdBump_pos i) bumpRecord
      bumpRecord_mem).2.1⟩

/-! ## Windowing -/

theorem hanning_loop (x : Buf ℝ) (N n : Nat) (i : Nat) :
    forUp (fun i (s : Buf ℝ) => Function.update s i (s i * hanningMultiplier N i)) 0 n x i
      = if i < n then x i * hanningMultiplier N i else x i := by
  induction n generalizing i with
  | zero => rw [forUp, if_neg (Nat.not_lt_zero i)]
  | succ n ih =>
    rw [forUp_succ_last, Nat.zero_add]
    by_cases h : i = n
    · subst h
      rw [Function.update_same, ih, if_neg (lt_irrefl _), if_pos (Nat.lt_succ_self _)]
    · rw [Function.update_noteq h, ih]
      by_cases h1 : i < n
      · rw [if_pos h1, if_pos (by omega)]
      · rw [if_neg h1, if_neg (by omega)]

theorem apply_hanning_window_apply (x : Buf ℝ) (N i : Nat) :
    apply_hanning_window x N i = if i < N then x i * hanningMultiplier N i else x i :=
  hanning_loop x N N i

/-- For `N >= 4` the multiplier of sample 1 is strictly between 0 and 1. -/
theorem hanningMultiplier_one (N : Nat) (hN : 4 ≤ N) :
    0 < hanningMultiplier N 1 ∧ hanningMultiplier N 1 < 1 := by
  have h4 : (4 : ℝ) ≤ (N : ℝ) := by exact_mod_cast hN
  have hd : (0 : ℝ) < (N : ℝ) - 1 := by linarith
  have hpi := Real.pi_pos
  have ht0 : 0 < 2 * Real.pi * ((1 : Nat) : ℝ) / ((N : ℝ) - 1) := by
    rw [Nat.cast_one, mul_one]
    exact div_pos (by linarith) hd
  have ht1 : 2 * Real.pi * ((1 : Nat) : ℝ) / ((N : ℝ) - 1) < Real.pi := by
    rw [Nat.cast_one, mul_one, div_lt_iff₀ hd]
    nlinarith
  have hc1 := Real.cos_lt_cos_of_nonneg_of_le_pi (le_refl 0) (le_of_lt ht1) ht0
  have hc2 := Real.cos_lt_cos_of_nonneg_of_le_pi (le_of_lt ht0) (le_refl Real.pi) ht1
  rw [Real.cos_zero] at hc1
  rw [Real.cos_pi] at hc2
  unfold hanningMultiplier
  constructor
  · have : (0 : ℝ) < 0.5 := by norm_num
    exact mul_pos this (by linarith)
  · have e : (0.5 : ℝ) = 1 / 2 := by norm_num
    rw [e]
    linarith

/-- C14: `apply_hanning_window` multiplies sample `n` by
`w(n) = 0.5*(1 - cos(2πn/(N-1)))`; applied twice it multiplies by `w(n)^2`,
which is not the same: for every signal of length `N >= 4` with `x[1] != 0`,
`window(window(x))` differs from `window(x)` (at sample 1). -/
theorem hanning_not_idempotent (x : Buf ℝ) (N : Nat) :
    (∀ n, n < N →
      apply_hanning_window x N n
        = x n * (0.5 * (1 - Real.cos (2 * Real.pi * (n : ℝ) / ((N : ℝ) - 1))))) ∧
    (∀ n, n < N →
      apply_hanning_window (apply_hanning_window x N) N n
        = x n * (0.5 * (1 - Real.cos (2 * Real.pi * (n : ℝ) / ((N : ℝ) - 1)))) ^ 2) ∧
    (4 ≤ N → x 1 ≠ 0 →
      apply_hanning_window (apply_hanning_window x N) N 1 ≠ apply_hanning_window x N 1 ∧
      apply_hanning_window (apply_hanning_window x N) N ≠ apply_hanning_window x N) := by
  have h1 : ∀ n, n < N → apply_hanning_window x N n = x n * hanningMultiplier N n := by
    intro n hn
    rw [apply_hanning_window_apply, if_pos hn]
  have h2 : ∀ n, n < N → apply_hanning_window (apply_hanning_window x N) N n
      = x n * hanningMultiplier N n ^ 2 := by
    intro n hn
    rw [apply_hanning_window_apply, if_pos hn, h1 n hn]
    ring
  refine ⟨h1, h2, fun hN hx => ?_⟩
  have hne : apply_hanning_window (apply_hanning_window x N) N 1 ≠ apply_hanning_window x N 1 := by
    rw [h2 1 (by omega), h1 1 (by omega)]
    obtain ⟨hm0, hm1⟩ := hanningMultiplier_one N hN
    intro e
    have e2 : x 1 * (hanningMultiplier N 1 * (hanningMultiplier N 1 - 1)) = 0 := by
      linear_combination e
    rcases mul_eq_zero.mp e2 with h | h
    · exact hx h
    · rcases mul_eq_zero.mp h with h | h
      · linarith
      · linarith
  exact ⟨hne, fun e => hne (congrFun e 1)⟩

theorem hanning_not_idempotent_witness :
    4 ≤ 4 ∧ (fun _ : Nat => (1 : ℝ)) 1 ≠ 0 ∧
    apply_hanning_window (apply_hanning_window (fun _ => 1) 4) 4
      ≠ apply_hanning_window (fun _ => 1) 4 :=
  ⟨le_refl 4, one_ne_zero,
    ((hanning_not_idempotent (fun _ => 1) 4).2.2 (le_refl 4) one_ne_zero).2⟩

/-! ## Scaling the signal -/

section BurgScale

variable {K : Type} [LinearOrderedField K]

theorem burgNumDen_scale (N j : Nat) (c : K) (f b : Buf K) :
    burgNumDen N j (fun i => c * f i) (fun i => c * b i)
      = (c ^ 2 * (burgNumDen N j f b).1, c ^ 2 * (burgNumDen N j f b).2) := by
  rw [burgNumDen_eq, burgNumDen_eq]
  simp only []
  rw [Finset.mul_sum, Finset.mul_sum]
  refine Prod.ext ?_ ?_
  · simp only []
    refine Finset.sum_congr rfl fun i _ => ?_
    ring
  · simp only []
    refine Finset.sum_congr rfl fun i _ => ?_
    ring

theorem burgErrUpdate_scale (N j : Nat) (k c : K) (f b : Buf K) :
    burgErrUpdate N j k (fun i => c * f i) (fun i => c * b i)
      = (fun i => c * (burgErrUpdate N j k f b).1 i,
         fun i => c * (burgErrUpdate N j k f b).2 i) := by
  rw [burgErrUpdate_eq, burgErrUpdate_eq]
  unfold errUpdateSpec
  refine Prod.ext (funext fun i => ?_) (funext fun i => ?_)
  · simp only []
    split
    · ring
    · rfl
  · simp only []
    split
    · ring
    · rfl

/-- Two runs of the order loop, the second on errors scaled by `c != 0` and
power scaled by `c^2`, stay in that relation and keep equal coefficients. -/
theorem burgLoop_scale (N : Nat) (c : K) (hc : c ≠ 0) :
    ∀ (fuel : Nat) (s t : BurgState K), s.j = t.j → t.f = (fun i => c * s.f i) →
      t.b = (fun i => c * s.b i) → t.p = c ^ 2 * s.p → t.a = s.a →
      (burgLoop N fuel t).j = (burgLoop N fuel s).j ∧
      (burgLoop N fuel t).p = c ^ 2 * (burgLoop N fuel s).p ∧
      (burgLoop N fuel t).a = (burgLoop N fuel s).a := by
  have hc2 : 0 < c ^ 2 := by positivity
  intro fuel
  induction fuel with
  | zero => intro s t hj _ _ hp ha; exact ⟨hj.symm, hp, ha⟩
  | succ n ih =>
    intro s t hj hf hb hp ha
    have hnd : burgNumDen N t.j t.f t.b
        = (c ^ 2 * (burgNumDen N s.j s.f s.b).1, c ^ 2 * (burgNumDen N s.j s.f s.b).2) := by
      rw [← hj, hf, hb, burgNumDen_scale]
    have hk : -2 * (burgNumDen N t.j t.f t.b).1 / (burgNumDen N t.j t.f t.b).2
        = -2 * (burgNumDen N s.j s.f s.b).1 / (burgNumDen N s.j s.f s.b).2 := by
      rw [hnd]
      simp only []
      rw [mul_left_comm, mul_div_mul_left _ _ (ne_of_gt hc2)]
    by_cases h : (burgNumDen N s.j s.f s.b).2 ≤ 0
    · have ht : (burgNumDen N t.j t.f t.b).2 ≤ 0 := by
        rw [hnd]
        exact mul_nonpos_of_nonneg_of_nonpos (le_of_lt hc2) h
      rw [burgLoop_break _ _ _ h, burgLoop_break _ _ _ ht]
      exact ⟨hj.symm, hp, ha⟩
    · have h1 : 0 < (burgNumDen N s.j s.f s.b).2 := not_le.mp h
      have ht : 0 < (burgNumDen N t.j t.f t.b).2 := by
        rw [hnd]
        exact mul_pos hc2 h1
      rw [burgLoop_step _ _ _ h1, burgLoop_step _ _ _ ht]
      refine ih (burgStep N s) (burgStep N t) ?_ ?_ ?_ ?_ ?_
      · show s.j + 1 = t.j + 1
        rw [hj]
      · show (burgErrUpdate N t.j _ t.f t.b).1 = fun i => c * (burgErrUpdate N s.j _ s.f s.b).1 i
        rw [hk, ← hj, hf, hb, burgErrUpdate_scale]
      · show (burgErrUpdate N t.j _ t.f t.b).2 = fun i => c * (burgErrUpdate N s.j _ s.f s.b).2 i
        rw [hk, ← hj, hf, hb, burgErrUpdate_scale]
      · show t.p * (1 - _ * _) = c ^ 2 * (s.p * (1 - _ * _))
        rw [hk, hp]
        ring
      · funext i
        show (burgCoefUpdate t.j _ t.a t.a_temp).1 i = (burgCoefUpdate s.j _ s.a s.a_temp).1 i
        rw [burgCoefUpdate_fst, burgCoefUpdate_fst, hk, ha, hj]

/-- C20: for every signal `x` of length `N >= 1`, order `P` and `c != 0`,
`burg_method(c*x, P)` returns the coefficients `a[0..P]` of
`burg_method(x, P)`, leaves its loop at the same step, and returns `c^2` times
the variance. -/
theorem burg_scale (x : Buf K) (N P : Nat) (a a' : Buf K) (c : K) (_hN : 1 ≤ N)
    (hc : c ≠ 0) :
    (∀ i, i ≤ P →
      (burg_method true (fun n => c * x n) N P a').1 i = (burg_method true x N P a).1 i) ∧
    (burg_method true (fun n => c * x n) N P a').2 = c ^ 2 * (burg_method true x N P a).2 ∧
    (burgRun (fun n => c * x n) N P a').j = (burgRun x N P a).j := by
  obtain ⟨ej, _, _, ep, _, ea⟩ :=
    burgRun_agree_upto (fun n => c * x n) N P P a' a (le_refl P)
  have hs := burgLoop_scale N c hc P (burgInit x N P a) (burgInit (fun n => c * x n) N P a)
    rfl
    (by
      rw [burgInit_f, burgInit_f]
      funext i
      simp only []
      split
      · rfl
      · rw [mul_zero])
    (by
      rw [burgInit_b, burgInit_b]
      funext i
      simp only []
      split
      · rfl
      · rw [mul_zero])
    (by
      rw [burgInit_p, burgInit_p, ← mul_div_assoc, Finset.mul_sum]
      congr 1
      exact Finset.sum_congr rfl fun i _ => by ring)
    (by
      funext i
      rw [burgInit_a, burgInit_a])
  rw [burg_method_true, burg_method_true]
  refine ⟨fun i hi => ?_, ?_, ?_⟩
  · show (burgRun (fun n => c * x n) N P a').a i = (burgRun x N P a).a i
    rw [ea i hi]
    exact congrFun hs.2.2 i
  · show (burgRun (fun n => c * x n) N P a').p = c ^ 2 * (burgRun x N P a).p
    rw [ep]
    exact hs.2.1
  · rw [ej]
    exact hs.1

end BurgScale

theorem burg_scale_witness :
    1 ≤ 3 ∧ (2 : ℚ) ≠ 0 ∧
    (burg_method true (fun n => 2 * sigRamp n) 3 2 bufMinusTwo).2
      = 2 ^ 2 * (burg_method true sigRamp 3 2 bufSeven).2 ∧
    (burgRun (fun n => 2 * sigRamp n) 3 2 bufMinusTwo).j = (burgRun sigRamp 3 2 bufSeven).j :=
  ⟨by decide, two_ne_zero,
    (burg_scale sigRamp 3 2 bufSeven bufMinusTwo 2 (by decide) two_ne_zero).2.1,
    (burg_scale sigRamp 3 2 bufSeven bufMinusTwo 2 (by decide) two_ne_zero).2.2⟩

/-! ## The pipeline on a three-sample sinusoid -/

/-- Burg at order 2 on a buffer `[0, 1, 0]`: step 0 has `num = 0`, so `k = 0`,
and step 1 finds `den = 0`. -/
theorem burg_spike (sg a : Buf ℝ) (h0 : sg 0 = 0) (h1 : sg 1 = 1) (h2 : sg 2 = 0) :
    (burg_method true sg 3 2 a).1 1 = 0 ∧ (burg_method true sg 3 2 a).1 2 = 0 ∧
      (burg_method true sg 3 2 a).2 = 1 / 3 := by
  refine ⟨?_, ?_, ?_⟩ <;>
  norm_num [burg_method, burgRun, burgLoop, burgInit, burgNumDen, forUp, forDown,
    Function.update, burgStep, burgErrUpdate, burgCoefUpdate, h0, h1, h2]

/-- The windowed three-sample sinusoid of frequency `sample_rate/4` is
`[0, 1, 0]`. -/
theorem windowed_sinusoid_three :
    apply_hanning_window (sinusoid 1 4) 3 0 = 0 ∧
    apply_hanning_window (sinusoid 1 4) 3 1 = 1 ∧
    apply_hanning_window (sinusoid 1 4) 3 2 = 0 := by
  have s0 : sinusoid 1 4 0 = 0 := by
    unfold sinusoid
    rw [show 2 * Real.pi * 1 * ((0 : Nat) : ℝ) / 4 = 0 by push_cast; ring, Real.sin_zero]
  have s1 : sinusoid 1 4 1 = 1 := by
    unfold sinusoid
    rw [show 2 * Real.pi * 1 * ((1 : Nat) : ℝ) / 4 = Real.pi / 2 by push_cast; ring,
      Real.sin_pi_div_two]
  have m1 : hanningMultiplier 3 1 = 1 := by
    unfold hanningMultiplier
    rw [show 2 * Real.pi * ((1 : Nat) : ℝ) / (((3 : Nat) : ℝ) - 1) = Real.pi by push_cast; ring,
      Real.cos_pi]
    norm_num
  have m2 : hanningMultiplier 3 2 = 0 := by
    unfold hanningMultiplier
    rw [show 2 * Real.pi * ((2 : Nat) : ℝ) / (((3 : Nat) : ℝ) - 1) = 2 * Real.pi by
      push_cast; ring, Real.cos_two_pi]
    norm_num
  refine ⟨?_, ?_, ?_⟩
  · rw [apply_hanning_window_apply, if_pos (by decide), s0, zero_mul]
  · rw [apply_hanning_window_apply, if_pos (by decide), s1, m1, one_mul]
  · rw [apply_hanning_window_apply, if_pos (by decide), m2, mul_zero]

/-- A model with `a[1] = a[2] = 0` has a flat spectrum at order 2. -/
theorem psdBin_flat (a : Buf ℝ) (variance : ℝ) (n_freq i : Nat) (h1 : a 1 = 0)
    (h2 : a 2 = 0) : psdBin a 2 variance n_freq i = variance := by
  unfold psdBin
  simp only []
  rw [psdDenLoop_eq]
  simp only []
  rw [Finset.sum_range_succ, Finset.sum_range_one, h1, h2]
  simp

/-- The sinusoid of frequency `f0 = 1` sampled at `sample_rate = 4`
(`0 < f0 < sample_rate/2`), three samples long, at order 2: the pipeline of
`main.c` writes no peak at all. -/
theorem sinusoid_three_samples_no_peak (a psd : Buf ℝ) :
    (0 : ℝ) < 1 ∧ (1 : ℝ) < 4 / 2 ∧ 2 ≤ 2 ∧ 2 < 3 ∧
    mainPeaks (sinusoid 1 4) 3 4 2 a psd = [] := by
  refine ⟨zero_lt_one, by norm_num, le_refl 2, by decide, ?_⟩
  obtain ⟨w0, w1, w2⟩ := windowed_sinusoid_three
  obtain ⟨b1, b2, _⟩ := burg_spike (apply_hanning_window (sinusoid 1 4) 3) a w0 w1 w2
  rw [List.eq_nil_iff_forall_not_mem]
  intro r hr
  unfold mainPeaks at hr
  simp only [] at hr
  rw [mem_analyze] at hr
  obtain ⟨i, hi1, hi2, hi3⟩ := hr
  rw [mem_peakAt] at hi3
  obtain ⟨⟨c1, _, _⟩, _⟩ := hi3
  rw [calculate_psd_apply, calculate_psd_apply, if_pos (by omega), if_pos (by omega),
    psdBin_flat _ _ _ _ b1 b2, psdBin_flat _ _ _ _ b1 b2] at c1
  exact lt_irrefl _ c1


theorem sigHuge_sq : sigHuge 0 * sigHuge 0 = Dbl.pinf := by
  show Dbl.fin (2 ^ 600) * Dbl.fin (2 ^ 600) = Dbl.pinf
  rw [Dbl.fin_mul_fin]
  refine Dbl.ofReal_of_large _ ?_
  unfold Dbl.overflowBound
  norm_num

/-- C5, as stated, fails on binary64 values: for the constant signal `2^600`
of length 3 and order 2, `c*c` overflows, step 0 divides `-inf` by `+inf`, the
`den <= 0.0` test never holds on NaN, and `burg_method` returns
`a = [1, NaN, NaN]` with variance NaN, which is not `<= 0`. -/
theorem burg_constant_overflow :
    (∀ i, i < 3 → sigHuge i = Dbl.fin (2 ^ 600)) ∧ 1 ≤ 2 ∧ 2 < 3 ∧
    (burg_method true sigHuge 3 2 bufDblZero).1 0 = 1 ∧
    (burg_method true sigHuge 3 2 bufDblZero).1 1 = Dbl.nan ∧
    (burg_method true sigHuge 3 2 bufDblZero).1 2 = Dbl.nan ∧
    (burg_method true sigHuge 3 2 bufDblZero).2 = Dbl.nan ∧
    ¬ ((burg_method true sigHuge 3 2 bufDblZero).2 ≤ 0) ∧
    (burg_method true sigHuge 3 2 bufDblZero).1 1 ≠ -1 := by
  have hsq : Dbl.fin (2 ^ 600) * Dbl.fin (2 ^ 600) = Dbl.pinf := sigHuge_sq
  have h3 : ((3 : Nat) : Dbl) = Dbl.fin 3 := by rw [Dbl.natCast_def]; norm_num
  have hm2 : (-2 : Dbl) = Dbl.fin (-2) := by rw [Dbl.two_def, Dbl.neg_fin]
  have hm2inf : Dbl.fin (-2) * Dbl.pinf = Dbl.ninf := Dbl.fin_neg_mul_pinf _ (by norm_num)
  have hdiv3 : Dbl.pinf / Dbl.fin 3 = Dbl.pinf := Dbl.pinf_div_fin_pos 3 (by norm_num)
  have ha0 : (burg_method true sigHuge 3 2 bufDblZero).1 0 = 1 := by
    simp [burg_method, burgRun, burgLoop, burgInit, burgNumDen, forUp, forDown,
      Function.update, burgStep, burgErrUpdate, burgCoefUpdate, sigHuge, hsq, h3, hm2, hm2inf,
      hdiv3, Dbl.zero_def, Dbl.one_def, Dbl.fin_add_pinf, Dbl.pinf_add_pinf, Dbl.nan_add,
      Dbl.add_nan, Dbl.nan_mul, Dbl.mul_nan, Dbl.nan_sub, Dbl.sub_nan, Dbl.nan_div,
      Dbl.div_nan, Dbl.not_nan_le, Dbl.not_pinf_le_fin, Dbl.ninf_div_pinf]
  have ha1 : (burg_method true sigHuge 3 2 bufDblZero).1 1 = Dbl.nan := by
    simp [burg_method, burgRun, burgLoop, burgInit, burgNumDen, forUp, forDown,
      Function.update, burgStep, burgErrUpdate, burgCoefUpdate, sigHuge, hsq, h3, hm2, hm2inf,
      hdiv3, Dbl.zero_def, Dbl.one_def, Dbl.fin_add_pinf, Dbl.pinf_add_pinf, Dbl.nan_add,
      Dbl.add_nan, Dbl.nan_mul, Dbl.mul_nan, Dbl.nan_sub, Dbl.sub_nan, Dbl.nan_div,
      Dbl.div_nan, Dbl.not_nan_le, Dbl.not_pinf_le_fin, Dbl.ninf_div_pinf]
  have ha2 : (burg_method true sigHuge 3 2 bufDblZero).1 2 = Dbl.nan := by
    simp [burg_method, burgRun, burgLoop, burgInit, burgNumDen, forUp, forDown,
      Function.update, burgStep, burgErrUpdate, burgCoefUpdate, sigHuge, hsq, h3, hm2, hm2inf,
      hdiv3, Dbl.zero_def, Dbl.one_def, Dbl.fin_add_pinf, Dbl.pinf_add_pinf, Dbl.nan_add,
      Dbl.add_nan, Dbl.nan_mul, Dbl.mul_nan, Dbl.nan_sub, Dbl.sub_nan, Dbl.nan_div,
      Dbl.div_nan, Dbl.not_nan_le, Dbl.not_pinf_le_fin, Dbl.ninf_div_pinf]
  have hv : (burg_method true sigHuge 3 2 bufDblZero).2 = Dbl.nan := by
    simp [burg_method, burgRun, burgLoop, burgInit, burgNumDen, forUp, forDown,
      Function.update, burgStep, burgErrUpdate, burgCoefUpdate, sigHuge, hsq, h3, hm2, hm2inf,
      hdiv3, Dbl.zero_def, Dbl.one_def, Dbl.fin_add_pinf, Dbl.pinf_add_pinf, Dbl.nan_add,
      Dbl.add_nan, Dbl.nan_mul, Dbl.mul_nan, Dbl.nan_sub, Dbl.sub_nan, Dbl.nan_div,
      Dbl.div_nan, Dbl.not_nan_le, Dbl.not_pinf_le_fin, Dbl.ninf_div_pinf]
  refine ⟨fun _ _ => rfl, by decide, by decide, ha0, ha1, ha2, hv, ?_, ?_⟩
  · rw [hv]
    exact Dbl.not_nan_le 0
  · rw [ha1, Dbl.one_def, Dbl.neg_fin]
    exact fun h => Dbl.noConfusion h

/-! ## The spectrum on binary64 values -/

/-- At bin 0 the angle is `0`. -/
theorem psd64_omega_zero :
    (2 : Dbl) * Dbl.fin Real.pi * ((0 : Nat) : Dbl) / (2 * Dbl.ofInt (((2 : Nat) : Int) - 1))
      = Dbl.fin 0 := by
  have hpi : Dbl.ofReal (2 * Real.pi) = Dbl.fin (2 * Real.pi) := by
    refine Dbl.ofReal_of_pos_mid _ ?_ ?_
    · have := Dbl.underflowBound_lt_one
      have := Real.pi_gt_three
      linarith
    · have := Dbl.eight_lt_overflowBound
      have := Real.pi_lt_four
      linarith
  have hden : (2 : Dbl) * Dbl.ofInt (((2 : Nat) : Int) - 1) = Dbl.fin 2 := by
    show (2 : Dbl) * Dbl.fin (((((2 : Nat) : Int) - 1 : Int)) : ℝ) = Dbl.fin 2
    rw [Dbl.two_def, Dbl.fin_mul_fin]
    norm_num
    exact Dbl.ofReal_two
  rw [hden, Dbl.two_def, Dbl.fin_mul_fin, hpi, Dbl.natCast_def, Dbl.fin_mul_fin]
  norm_num
  rw [Dbl.ofReal_zero]
  show (if (2 : ℝ) = 0 then _ else Dbl.ofReal (0 / 2)) = Dbl.fin 0
  rw [if_neg (by norm_num)]
  norm_num
  exact Dbl.ofReal_zero

/-- At angle `0` the twiddle factor is `1 + 0i`. -/
theorem cexp_negIMul_zero : CDbl.cexp (CDbl.negIMul (Dbl.fin 0)) = ⟨Dbl.fin 1, Dbl.fin 0⟩ := by
  have h1 : CDbl.negIMul (Dbl.fin 0) = ⟨Dbl.fin 0, Dbl.fin 0⟩ := by
    unfold CDbl.negIMul
    rw [Dbl.fin_mul_fin, Dbl.fin_mul_fin]
    norm_num
    exact Dbl.ofReal_zero
  rw [h1]
  show (⟨Dbl.ofReal (Real.exp 0 * Real.cos 0), Dbl.ofReal (Real.exp 0 * Real.sin 0)⟩ : CDbl) = _
  rw [Real.exp_zero, Real.cos_zero, Real.sin_zero, one_mul, one_mul, Dbl.ofReal_one,
    Dbl.ofReal_zero]

/-- For `a = [1, -1, t]` the loop at bin 0 leaves `den = t + 0i`. -/
theorem psdDenLoop64_cancel (t : ℝ) (h1 : Dbl.underflowBound < t) (h2 : t < Dbl.overflowBound) :
    (psdDenLoop64 (coefCancel64 t) 2 ⟨Dbl.fin 1, Dbl.fin 0⟩).1 = ⟨Dbl.fin t, Dbl.fin 0⟩ := by
  have ht : Dbl.ofReal t = Dbl.fin t := Dbl.ofReal_of_pos_mid t h1 h2
  unfold psdDenLoop64
  simp only [forUp, CDbl.add, CDbl.scale, CDbl.mul, CDbl.ofDbl, coefCancel64, coefCancel,
    Dbl.one_def, Dbl.zero_def, Dbl.fin_mul_fin, Dbl.fin_add_fin, Dbl.fin_sub_fin]
  norm_num [Dbl.ofReal_zero, Dbl.ofReal_one, Dbl.ofReal_neg_one, Dbl.fin_add_fin,
    Dbl.fin_sub_fin, Dbl.fin_mul_fin, ht]

/-- For `a = [1, -1, t]`, order 2, `n_freq = 2`, the value stored at bin 0 is
`variance / (t*t)`, the square taken in binary64. -/
theorem psdBin64_cancel (t : ℝ) (variance : Dbl) (h1 : Dbl.underflowBound < t)
    (h2 : t < Dbl.overflowBound) :
    psdBin64 (coefCancel64 t) 2 variance 2 0 = variance / Dbl.ofReal (t * t) := by
  have ht0 : 0 < t := lt_trans Dbl.underflowBound_pos h1
  unfold psdBin64
  simp only []
  rw [psd64_omega_zero, cexp_negIMul_zero, psdDenLoop64_cancel t h1 h2]
  have hc : CDbl.cabs ⟨Dbl.fin t, Dbl.fin 0⟩ = Dbl.fin t := by
    show Dbl.ofReal (Real.sqrt (t * t + 0 * 0)) = Dbl.fin t
    rw [mul_zero, add_zero, Real.sqrt_mul_self (le_of_lt ht0)]
    exact Dbl.ofReal_of_pos_mid t h1 h2
  rw [hc, Dbl.fin_mul_fin]

theorem calculate_psd64_apply (a : Buf Dbl) (order : Nat) (variance : Dbl) (n_freq : Nat)
    (psd : Buf Dbl) (i : Nat) (hi : i < n_freq) :
    calculate_psd64 a order variance n_freq psd i = psdBin64 a order variance n_freq i := by
  unfold calculate_psd64
  rw [forUp_store, if_pos (by omega)]

/-- Over the reals `D` of `a = [1, -1, t]` is `t` at angle 0 and `2 + t` at
angle π, so it has no zero on the two-point grid when `t > 0`. -/
theorem coefCancel_denominator_ne_zero (t : ℝ) (ht : 0 < t) (i : Nat) (hi : i < 2) :
    arDenominator (coefCancel t) 2 (Real.pi * (i : ℝ) / (((2 : Nat) : ℝ) - 1)) ≠ 0 := by
  have hsum : ∀ omega : ℝ, arDenominator (coefCancel t) 2 omega
      = 1 + (((-1 : ℝ) : ℂ) * Complex.exp (-Complex.I * ((1 : Nat) : ℂ) * (omega : ℂ))
        + ((t : ℝ) : ℂ) * Complex.exp (-Complex.I * ((2 : Nat) : ℂ) * (omega : ℂ))) := by
    intro omega
    unfold arDenominator
    rw [show Finset.Icc 1 2 = {1, 2} from rfl, Finset.sum_pair (by decide)]
    rfl
  have hi' : i = 0 ∨ i = 1 := by omega
  rcases hi' with rfl | rfl
  · rw [hsum]
    norm_num
    exact_mod_cast ne_of_gt ht
  · rw [hsum]
    have e1 : -Complex.I * ((1 : Nat) : ℂ) * ((Real.pi * ((1 : Nat) : ℝ) / (((2 : Nat) : ℝ) - 1) : ℝ) : ℂ)
        = -(Real.pi * Complex.I) := by
      push_cast; ring
    have e2 : -Complex.I * ((2 : Nat) : ℂ) * ((Real.pi * ((1 : Nat) : ℝ) / (((2 : Nat) : ℝ) - 1) : ℝ) : ℂ)
        = -(2 * Real.pi * Complex.I) := by
      push_cast; ring
    rw [e1, e2, Complex.exp_neg, Complex.exp_neg, Complex.exp_pi_mul_I, Complex.exp_two_pi_mul_I]
    norm_num
    intro h
    have h2 : ((2 + t : ℝ) : ℂ) = 0 := by
      push_cast
      linear_combination h
    have h3 : (2 + t : ℝ) = 0 := by exact_mod_cast h2
    linarith

/-- C8, as stated, fails on binary64 values, at bin 0 of a two-point grid on
which `D` has no zero. For `a = [1, -1, 2^-600]` and variance 0 the square of
`cabs(den) = 2^-600` underflows to 0 and `0/0 = NaN` is stored, which is not
`>= 0`; for `a = [1, -1, 2^700]` and variance 1 the square overflows and
`1/inf = 0` is stored, which is not `> 0`. -/
theorem psd_not_nonneg_binary64 :
    2 ≤ 2 ∧
    (∀ i : Nat, i < 2 → arDenominator (coefCancel ((2 ^ 600)⁻¹)) 2
      (Real.pi * (i : ℝ) / (((2 : Nat) : ℝ) - 1)) ≠ 0) ∧
    calculate_psd64 (coefCancel64 ((2 ^ 600)⁻¹)) 2 (Dbl.fin 0) 2 bufDblZero 0 = Dbl.nan ∧
    ¬ ((0 : Dbl) ≤ calculate_psd64 (coefCancel64 ((2 ^ 600)⁻¹)) 2 (Dbl.fin 0) 2 bufDblZero 0) ∧
    (∀ i : Nat, i < 2 → arDenominator (coefCancel (2 ^ 700)) 2
      (Real.pi * (i : ℝ) / (((2 : Nat) : ℝ) - 1)) ≠ 0) ∧
    calculate_psd64 (coefCancel64 (2 ^ 700)) 2 (Dbl.fin 1) 2 bufDblZero 0 = Dbl.fin 0 ∧
    (0 : Dbl) < Dbl.fin 1 ∧
    ¬ ((0 : Dbl) < calculate_psd64 (coefCancel64 (2 ^ 700)) 2 (Dbl.fin 1) 2 bufDblZero 0) := by
  have hsmall : calculate_psd64 (coefCancel64 ((2 ^ 600)⁻¹)) 2 (Dbl.fin 0) 2 bufDblZero 0
      = Dbl.nan := by
    rw [calculate_psd64_apply _ _ _ _ _ _ (by decide), psdBin64_cancel]
    · rw [Dbl.ofReal_of_small]
      · show (if (0 : ℝ) = 0 then (if (0 : ℝ) = 0 then Dbl.nan else _) else _) = Dbl.nan
        rw [if_pos rfl, if_pos rfl]
      · unfold Dbl.underflowBound
        rw [abs_of_pos (by positivity), ← mul_inv, ← pow_add]
        exact inv_anti₀ (by positivity) (pow_le_pow_right₀ (by norm_num) (by norm_num))
    · unfold Dbl.underflowBound
      exact inv_strictAnti₀ (by positivity) (pow_lt_pow_right₀ (by norm_num) (by norm_num))
    · have h1 : ((2 : ℝ) ^ 600)⁻¹ < 1 := by
        rw [inv_lt_one_iff₀]
        right
        exact one_lt_pow₀ (by norm_num) (by norm_num)
      have := Dbl.eight_lt_overflowBound
      linarith
  have hbig : calculate_psd64 (coefCancel64 (2 ^ 700)) 2 (Dbl.fin 1) 2 bufDblZero 0
      = Dbl.fin 0 := by
    rw [calculate_psd64_apply _ _ _ _ _ _ (by decide), psdBin64_cancel]
    · rw [Dbl.ofReal_of_large]
      · rfl
      · unfold Dbl.overflowBound
        norm_num
    · have := Dbl.underflowBound_lt_one
      have h1 : (1 : ℝ) < 2 ^ 700 := one_lt_pow₀ (by norm_num) (by norm_num)
      linarith
    · unfold Dbl.overflowBound
      norm_num
  refine ⟨le_refl 2, fun i hi => coefCancel_denominator_ne_zero _ (by positivity) i hi, hsmall,
    ?_, fun i hi => coefCancel_denominator_ne_zero _ (by positivity) i hi, hbig, ?_, ?_⟩
  · rw [hsmall]
    exact Dbl.not_le_nan 0
  · show (0 : ℝ) < 1
    norm_num
  · rw [hbig]
    show ¬ ((0 : ℝ) < 0)
    exact lt_irrefl 0

/-! ## The interpolation on binary64 values -/

theorem log10Down_inDecade : Log10InDecade log10Down := by
  intro m hm1 hm2
  have hm1' : (2 : ℝ) ^ 52 ≤ (m : ℝ) := by exact_mod_cast hm1
  have hm2' : (m : ℝ) < 2 ^ 53 := by exact_mod_cast hm2
  have hx1 : (10 : ℝ) ^ 10 ≤ (m : ℝ) / 2 ^ 18 := by
    rw [le_div_iff₀ (by positivity)]
    have : (10 : ℝ) ^ 10 * 2 ^ 18 ≤ 2 ^ 52 := by norm_num
    linarith
  have hx2 : (m : ℝ) / 2 ^ 18 < 10 ^ 11 := by
    rw [div_lt_iff₀ (by positivity)]
    have : (2 : ℝ) ^ 53 ≤ 10 ^ 11 * 2 ^ 18 := by norm_num
    linarith
  have hx0 : (0 : ℝ) < (m : ℝ) / 2 ^ 18 := lt_of_lt_of_le (by positivity) hx1
  have hL1 : (10 : ℝ) ≤ Real.logb 10 ((m : ℝ) / 2 ^ 18) := by
    rw [Real.le_logb_iff_rpow_le (by norm_num) hx0]
    have e : (10 : ℝ) ^ (10 : ℝ) = 10 ^ 10 := by
      rw [show (10 : ℝ) = ((10 : Nat) : ℝ) by norm_num, Real.rpow_natCast]
    rw [e]
    exact hx1
  have hL2 : Real.logb 10 ((m : ℝ) / 2 ^ 18) < 11 := by
    rw [Real.logb_lt_iff_lt_rpow (by norm_num) hx0]
    have e : (10 : ℝ) ^ (11 : ℝ) = 10 ^ 11 := by
      rw [show (11 : ℝ) = ((11 : Nat) : ℝ) by norm_num, Real.rpow_natCast]
    rw [e]
    exact hx2
  refine ⟨⌊Real.logb 10 ((m : ℝ) / 2 ^ 18) * 2 ^ 49⌋₊, ?_, ?_, rfl⟩
  · refine Nat.le_floor ?_
    push_cast
    nlinarith [show (0 : ℝ) < 2 ^ 49 by positivity]
  · have h0 : 0 ≤ Real.logb 10 ((m : ℝ) / 2 ^ 18) * 2 ^ 49 := by positivity
    have h1 := Nat.floor_le h0
    have h2 : ((⌊Real.logb 10 ((m : ℝ) / 2 ^ 18) * 2 ^ 49⌋₊ : Nat) : ℝ) ≤ ((11 * 2 ^ 49 : Nat) : ℝ) := by
      push_cast
      nlinarith [show (0 : ℝ) < 2 ^ 49 by positivity]
    exact_mod_cast h2

/-- Pigeonhole: there are fewer binary64 values between 10 and 11 than in the
binade `[2^34, 2^35)`, so `log10` takes some value twice there. -/
theorem log10_collision (log10 : Dbl → Dbl) (h : Log10InDecade log10) :
    ∃ m n k : Nat, 2 ^ 52 ≤ m ∧ m < n ∧ n < 2 ^ 53 ∧ 10 * 2 ^ 49 ≤ k ∧ k ≤ 11 * 2 ^ 49 ∧
      log10 (Dbl.fin ((m : ℝ) / 2 ^ 18)) = Dbl.fin ((k : ℝ) / 2 ^ 49) ∧
      log10 (Dbl.fin ((n : ℝ) / 2 ^ 18)) = Dbl.fin ((k : ℝ) / 2 ^ 49) := by
  classical
  let f : Nat → Nat := fun m =>
    if hm : 2 ^ 52 ≤ m ∧ m < 2 ^ 53 then Classical.choose (h m hm.1 hm.2) else 0
  have hf : ∀ m, ∀ hm : 2 ^ 52 ≤ m ∧ m < 2 ^ 53,
      10 * 2 ^ 49 ≤ f m ∧ f m ≤ 11 * 2 ^ 49 ∧
        log10 (Dbl.fin ((m : ℝ) / 2 ^ 18)) = Dbl.fin ((f m : ℝ) / 2 ^ 49) := by
    intro m hm
    have := Classical.choose_spec (h m hm.1 hm.2)
    simp only [f, dif_pos hm]
    exact this
  have hcard : (Finset.Icc (10 * 2 ^ 49) (11 * 2 ^ 49)).card
      < (Finset.Ico (2 ^ 52) (2 ^ 53)).card := by
    rw [Nat.card_Icc, Nat.card_Ico]
    norm_num
  obtain ⟨a, ha, b, hb, hab, hfab⟩ := Finset.exists_ne_map_eq_of_card_lt_of_maps_to hcard
    (fun m hm => by
      have hm' := Finset.mem_Ico.mp hm
      exact Finset.mem_Icc.mpr ⟨(hf m hm').1, (hf m hm').2.1⟩)
  have ha' := Finset.mem_Ico.mp ha
  have hb' := Finset.mem_Ico.mp hb
  rcases Nat.lt_or_gt_of_ne hab with hlt | hlt
  · exact ⟨a, b, f a, ha'.1, hlt, hb'.2, (hf a ha').1, (hf a ha').2.1, (hf a ha').2.2,
      by rw [hfab]; exact (hf b hb').2.2⟩
  · exact ⟨b, a, f b, hb'.1, hlt, ha'.2, (hf b hb').1, (hf b hb').2.1, (hf b hb').2.2,
      by rw [← hfab]; exact (hf a ha').2.2⟩

theorem Dbl.ten_def : (10 : Dbl) = Dbl.fin 10 := by
  show Dbl.fin (((8 + 2 : Nat)) : ℝ) = Dbl.fin 10
  norm_num

theorem Dbl.ofReal_of_moderate (x : ℝ) (h1 : 1 ≤ |x|) (h2 : |x| ≤ 2 ^ 10) :
    Dbl.ofReal x = Dbl.fin x := by
  refine Dbl.ofReal_of_mid x ?_ ?_
  · have := Dbl.underflowBound_lt_one
    linarith
  · have : (2 : ℝ) ^ 10 < Dbl.overflowBound := by
      unfold Dbl.overflowBound
      norm_num
    linarith

/-- With `log10 x = log10 x' = K` for `0 < x < x'` and `10 <= K <= 11`, the
array `[x, x', x]` has an accepted peak at bin 1 whose three dB values are
equal: the divisor is `0` and the offset is `0/0`. -/
theorem psdTriple_singular (log10 : Dbl → Dbl) (x x' K : ℝ) (hx : 0 < x) (hxx : x < x')
    (hK1 : 10 ≤ K) (hK2 : K ≤ 11) (h1 : log10 (Dbl.fin x) = Dbl.fin K)
    (h2 : log10 (Dbl.fin x') = Dbl.fin K) :
    (∀ i, i < 3 → (0 : Dbl) < psdTriple x x' i) ∧
    peakAccepted64 log10 (psdTriple x x') 3 (Dbl.fin (-40)) 1 ∧
    peakDivisor64 log10 (psdTriple x x') 1 = Dbl.fin 0 ∧
    ¬ (peakDivisor64 log10 (psdTriple x x') 1 < 0) ∧
    peakOffset64 log10 (psdTriple x x') 1 = Dbl.nan := by
  have hx' : 0 < x' := lt_trans hx hxx
  have hdb : ∀ z : ℝ, 0 < z → log10 (Dbl.fin z) = Dbl.fin K →
      to_db64 log10 (Dbl.fin z) = Dbl.fin (10 * K) := by
    intro z hz hl
    unfold to_db64
    rw [if_neg (by rw [Dbl.zero_def, Dbl.fin_le_fin]; exact not_le.mpr hz), hl, Dbl.ten_def,
      Dbl.fin_mul_fin]
    exact Dbl.ofReal_of_moderate _ (by rw [abs_of_pos (by linarith)]; linarith)
      (by rw [abs_of_pos (by linarith)]; norm_num; linarith)
  have p0 : psdTriple x x' 0 = Dbl.fin x := rfl
  have p1 : psdTriple x x' 1 = Dbl.fin x' := rfl
  have p2 : psdTriple x x' 2 = Dbl.fin x := rfl
  have hmax : maxPsdVal64 (psdTriple x x') 3 = Dbl.fin x' := by
    unfold maxPsdVal64
    simp only [forUp, p0, p1, p2]
    rw [if_pos (show Dbl.fin x > 0 from hx)]
    rw [if_pos (show Dbl.fin x' > Dbl.fin x from hxx)]
    rw [if_neg (show ¬ (Dbl.fin x > Dbl.fin x') from not_lt.mpr (le_of_lt hxx))]
  have hsum : Dbl.fin (10 * K) + Dbl.fin (-40) = Dbl.fin (10 * K - 40) := by
    rw [Dbl.fin_add_fin]
    have e : 10 * K + -40 = 10 * K - 40 := by ring
    rw [e]
    exact Dbl.ofReal_of_moderate _ (by rw [abs_of_pos (by linarith)]; linarith)
      (by rw [abs_of_pos (by linarith)]; norm_num; linarith)
  have hdiv : peakDivisor64 log10 (psdTriple x x') 1 = Dbl.fin 0 := by
    unfold peakDivisor64
    simp only [p1]
    rw [show psdTriple x x' (1 - 1) = Dbl.fin x from rfl,
      show psdTriple x x' (1 + 1) = Dbl.fin x from rfl, hdb x hx h1, hdb x' hx' h2,
      Dbl.two_def, Dbl.fin_mul_fin,
      Dbl.ofReal_of_moderate (2 * (10 * K)) (by rw [abs_of_pos (by linarith)]; linarith)
        (by rw [abs_of_pos (by linarith)]; norm_num; linarith),
      Dbl.fin_sub_fin,
      show 10 * K - 2 * (10 * K) = -(10 * K) by ring,
      Dbl.ofReal_of_moderate (-(10 * K)) (by rw [abs_neg, abs_of_pos (by linarith)]; linarith)
        (by rw [abs_neg, abs_of_pos (by linarith)]; norm_num; linarith),
      Dbl.fin_add_fin, neg_add_cancel, Dbl.ofReal_zero]
  refine ⟨?_, ⟨?_, ?_, ?_⟩, hdiv, ?_, ?_⟩
  · intro i _
    unfold psdTriple
    split
    · exact hx'
    · exact hx
  · rw [p1]; exact hxx
  · rw [p1]; exact hxx
  · rw [hmax, p1, hdb x' hx' h2, hsum]
    show 10 * K - 40 < 10 * K
    linarith
  · rw [hdiv]
    exact lt_irrefl (0 : ℝ)
  · have hnum : Dbl.fin 0.5 * (to_db64 log10 (psdTriple x x' (1 - 1))
        - to_db64 log10 (psdTriple x x' (1 + 1))) = Dbl.fin 0 := by
      rw [show psdTriple x x' (1 - 1) = Dbl.fin x from rfl,
        show psdTriple x x' (1 + 1) = Dbl.fin x from rfl, hdb x hx h1, Dbl.fin_sub_fin, sub_self,
        Dbl.ofReal_zero, Dbl.fin_mul_fin, mul_zero, Dbl.ofReal_zero]
    have hdiv' : to_db64 log10 (psdTriple x x' (1 - 1)) - 2 * to_db64 log10 (psdTriple x x' 1)
        + to_db64 log10 (psdTriple x x' (1 + 1)) = Dbl.fin 0 := hdiv
    unfold peakOffset64
    simp only []
    rw [hnum, hdiv']
    show (if (0 : ℝ) = 0 then (if (0 : ℝ) = 0 then Dbl.nan else _) else _) = Dbl.nan
    rw [if_pos rfl, if_pos rfl]

/-- C18, as stated, fails on binary64 values, whatever the library's `log10`:
it sends the `2^52` values of the binade `[2^34, 2^35)` to values between 10
and 11, of which there are fewer, so two binary64 values `x = m·2^-18` and
`x' = n·2^-18` with `x < x'` get the same dB. The array `[x, x', x]` is strictly positive, bin 1 passes the acceptance
test, and its three dB values are equal: the divisor is `0`, not negative, and
the offset `p` is `0/0 = NaN`. -/
theorem sub_bin_bound_fails_binary64 :
    Log10InDecade log10Down ∧
    ∀ log10 : Dbl → Dbl, Log10InDecade log10 →
      ∃ m n : Nat, 2 ^ 52 ≤ m ∧ m < n ∧ n < 2 ^ 53 ∧
      ∃ x x' : ℝ, x = (m : ℝ) / 2 ^ 18 ∧ x' = (n : ℝ) / 2 ^ 18 ∧ 0 < x ∧ x < x' ∧
        (∀ i, i < 3 → (0 : Dbl) < psdTriple x x' i) ∧
        peakAccepted64 log10 (psdTriple x x') 3 (Dbl.fin (-40)) 1 ∧
        peakDivisor64 log10 (psdTriple x x') 1 = Dbl.fin 0 ∧
        ¬ (peakDivisor64 log10 (psdTriple x x') 1 < 0) ∧
        peakOffset64 log10 (psdTriple x x') 1 = Dbl.nan := by
  refine ⟨log10Down_inDecade, fun log10 h => ?_⟩
  obtain ⟨m, n, k, hm, hmn, hn, hk1, hk2, e1, e2⟩ := log10_collision log10 h
  have hm0 : (0 : ℝ) < (m : ℝ) := by
    have : 0 < m := lt_of_lt_of_le (by norm_num) hm
    exact_mod_cast this
  have hmn' : (m : ℝ) < (n : ℝ) := by exact_mod_cast hmn
  have hk1' : (10 : ℝ) ≤ (k : ℝ) / 2 ^ 49 := by
    rw [le_div_iff₀ (by positivity)]
    exact_mod_cast hk1
  have hk2' : (k : ℝ) / 2 ^ 49 ≤ 11 := by
    rw [div_le_iff₀ (by positivity)]
    exact_mod_cast hk2
  exact ⟨m, n, hm, hmn, hn, (m : ℝ) / 2 ^ 18, (n : ℝ) / 2 ^ 18, rfl, rfl, by positivity,
    div_lt_div_of_pos_right hmn' (by positivity),
    psdTriple_singular log10 _ _ _ (by positivity) (div_lt_div_of_pos_right hmn' (by positivity))
      hk1' hk2' e1 e2⟩

end ArPsd
